import Mathlib

/-!
The command processor of the shell `rush` (`src/rush.c`), embedded shallowly.

* A byte is a `Char`; the delimiters the program looks at are all ASCII.
* A `char *` is modelled by the bytes it points at: `Mem` is the list of
  bytes from the pointer onwards, the bytes after the end of the list are
  NUL.  `p + n` is `List.drop n`, `*p` is `rd p 0`, the C string at `p` is
  `cstr p`.
* The operating system is a record of oracles (`OS`); every system call the
  program makes is recorded as an `Event`.
* `malloc` and `strdup` are taken to succeed; `fork` may fail (`OS.forkOk`).
* The pointer `buffer` of `EnterShell` is followed through the loop as a
  `BufferPtr`: line 68 moves it into its block when the line begins with white
  space, lines 59 and 89 free it.  Where `getline` or `free` is handed a
  pointer it may not be given, the run of the model ends (`LoopEnd`).
-/

namespace Rush

/-! ## Bytes, pointers and C strings -/

/-- Memory seen from a pointer: the bytes at `p`, `p + 1`, ... -/
abbrev Mem := List Char

/-- A NUL-free string. -/
abbrev CStr := List Char

/-- The terminator `'\0'`. -/
def NUL : Char := Char.ofNat 0

/-- Read `p[i]`. -/
def rd (p : Mem) (i : Nat) : Char := p.getD i NUL

/-- The C string stored at `p`: the bytes before the first NUL. -/
def cstr : Mem → CStr
  | [] => []
  | c :: cs => if c = NUL then [] else c :: cstr cs

/-- `strlen`. -/
def strlen : Mem → Nat
  | [] => 0
  | c :: cs => if c = NUL then 0 else strlen cs + 1

/-- `isspace` of `<ctype.h>` in the "C" locale (the program never calls
`setlocale`): space, `\t`, `\n`, `\v`, `\f`, `\r`. -/
def isspace (c : Char) : Bool :=
  c = ' ' || c = '\t' || c = '\n' || c = Char.ofNat 11 || c = Char.ofNat 12 || c = '\r'

/-! ## trimWhitespace (rush.c 236-257) -/

/-- First loop of `trimWhitespace`:
`for (p = str; *p != '\0'; p++) if (*p == '\t') *p = ' ';`. -/
def normalizeTabs : Mem → Mem
  | [] => []
  | c :: cs =>
    if c = NUL then c :: cs
    else (if c = '\t' then ' ' else c) :: normalizeTabs cs

/-- The loop `while (isspace(*str)) str++;`: how far `str` advances. -/
def skipSpaces : Mem → Nat
  | [] => 0
  | c :: cs => if isspace c then skipSpaces cs + 1 else 0

/-- The loop `while (end > str && isspace(*end)) end--;`, `end` counted as
an offset from `str`. -/
def backLoop (str : Mem) : Nat → Nat
  | 0 => 0
  | e + 1 => if isspace (rd str (e + 1)) then backLoop str e else e + 1

/-- `trimWhitespace(str)`.  The function works in place, so the result is the
memory as it is left: the bytes skipped in front of the returned pointer, and
the bytes from the returned pointer onwards. -/
def trimWhitespace (str0 : Mem) : Mem × Mem :=
  let m := normalizeTabs str0
  let k := skipSpaces m
  let str := m.drop k
  if rd str 0 = NUL then (m.take k, str)
  else
    let e := backLoop str (strlen str - 1)
    (m.take k, str.set (e + 1) NUL)

/-! ## CountArgs and the strsep loops (rush.c 220-233, 298-309, 376-389) -/

/-- The pieces `strsep(&s, delim)` returns one after the other until it
returns NULL: the string cut at every delimiter, empty pieces included.
`cur` is the piece being read. -/
def strsepAll (delim : Char) : CStr → CStr → List CStr
  | cur, [] => [cur]
  | cur, c :: cs =>
    if c = delim then cur :: strsepAll delim [] cs
    else strsepAll delim (cur ++ [c]) cs

/-- The loop `while ((token = strsep(&s, " ")) != NULL) if (*token != '\0') ...`:
the non-empty pieces, in order. -/
def strsepTokens (s : CStr) : List CStr :=
  (strsepAll ' ' [] s).filter (fun t => !t.isEmpty)

/-- `CountArgs(command)`. -/
def CountArgs (command : Mem) : Nat :=
  (strsepTokens (cstr command)).length

/-! ## setupCommands (rush.c 260-319) -/

/-- The normalising loop of `setupCommands` (lines 269-284).  `src` is what is
left to read, `out` is what has been written to `normalizedCommand` so far;
the first argument bounds the number of iterations. -/
def normalizeLoop : Nat → CStr → CStr → CStr
  | 0, _, out => out
  | _ + 1, [], out => out
  | fuel + 1, c :: rest, out =>
    if isspace c then
      normalizeLoop fuel (rest.dropWhile isspace) (out ++ [' '])
    else if c = '>' then
      let out1 := if out ≠ [] ∧ out.getLast? ≠ some ' ' then out ++ [' '] else out
      let out2 := out1 ++ ['>']
      let out3 := if rest.head? ≠ some ' ' then out2 ++ [' '] else out2
      normalizeLoop fuel rest out3
    else
      normalizeLoop fuel rest (out ++ [c])

/-- The string `normalizedCommand` holds at line 285, for the trimmed
command `s`. -/
def normalize (s : CStr) : CStr := normalizeLoop (s.length + 1) s []

/-- `setupCommands(command, ...)`: the argument vector it returns (without the
closing NULL). -/
def setupCommands (command : Mem) : List CStr :=
  strsepTokens (normalize (cstr (trimWhitespace command).2))

/-! ## The operating system and the events of a run -/

/-- The flags the program passes to `open`. -/
inductive OpenFlag
  | O_WRONLY
  | O_CREAT
  | O_TRUNC
  deriving DecidableEq, Repr

/-- A system call of the shell or of one of its children, as far as the
claims look at it. -/
inductive Event
  /-- `ErrorHandler(0)`: one write of "An error has occurred\n" to descriptor 2. -/
  | errorMessage
  /-- A call `open(file, flags, mode)`. -/
  | openFile (file : CStr) (flags : List OpenFlag) (mode : Nat)
  /-- A call `dup2(oldfd, newfd)`. -/
  | dup2 (oldfd newfd : Nat)
  /-- A call `close(fd)`. -/
  | close (fd : Nat)
  /-- A call `execv(path, argv)`. -/
  | execv (path : CStr) (argv : List CStr)
  /-- A call `fork()` of the shell; `command` is the string the child, if one is
  created, goes on to execute. -/
  | fork (command : CStr)
  /-- The loop `while (wait(NULL) > 0);` of line 118: the shell calls `wait`
  until it returns a value that is not positive, which it does once the
  process has no child left. -/
  | waitAll
  /-- A call `chdir(dir)`. -/
  | chdir (dir : CStr)
  deriving DecidableEq, Repr

/-- What the operating system answers. -/
structure OS where
  /-- `access(path, X_OK) == 0`. -/
  access : CStr → Bool
  /-- The descriptor `open` returns for a file, `none` when it fails. -/
  openFd : CStr → Option Nat
  /-- Whether `execv(path, argv)` replaces the process image. -/
  execvOk : CStr → List CStr → Bool
  /-- Whether `chdir(dir)` returns 0. -/
  chdirOk : CStr → Bool
  /-- Whether the `n`-th `fork()` of a line (counted from 0) creates a child. -/
  forkOk : Nat → Bool

/-- The globals `searchPaths` and `numPaths`; `none` is the NULL pointer. -/
structure Shell where
  searchPaths : Option (List CStr)
  numPaths : Nat
  deriving DecidableEq, Repr

/-- The path table the two globals stand for. -/
def Shell.table (sh : Shell) : List CStr :=
  match sh.searchPaths with
  | none => []
  | some ps => ps.take sh.numPaths

/-- `initializeSearchPaths()`. -/
def initializeSearchPaths : Shell :=
  { searchPaths := some ["/bin".toList], numPaths := 1 }

/-- How a call of `ExecuteCommand` ends. -/
inductive Outcome
  /-- The function returned; its caller then calls `exit(0)`. -/
  | returned
  /-- `execv` succeeded: the process now runs the new program. -/
  | replaced
  /-- The run reached undefined behaviour (a NULL dereference, or the second
  `free(path)` after a failed `execv`); nothing is said about what follows. -/
  | undefined
  deriving DecidableEq, Repr

/-- The events of a run of `ExecuteCommand` and how it ends. -/
structure Run where
  events : List Event
  outcome : Outcome
  deriving DecidableEq, Repr

/-! ## ExecuteCommand (rush.c 127-209) -/

/-- The locals of the redirection scan: the array `args` (with its NULL
entries), `outputRedirect` and `outputFile`. -/
structure Redir where
  args : List (Option CStr)
  outputRedirect : Bool
  outputFile : Option CStr
  deriving DecidableEq, Repr

/-- The loop of lines 139-157, from index `i` on; `none` is the
`ErrorHandler(0); ...; return;` of lines 142-145 and 150-153.  The first
argument bounds the number of iterations. -/
def redirectLoop : Nat → Nat → Redir → Option Redir
  | 0, _, st => some st
  | fuel + 1, i, st =>
    match st.args.getD i none with
    | none => some st
    | some a =>
      if a = ">".toList then
        if st.outputRedirect then none
        else
          let outputFile := st.args.getD (i + 1) none
          if outputFile = none ∨ st.args.getD (i + 2) none ≠ none then none
          else redirectLoop fuel (i + 1)
            { args := st.args.set i none, outputRedirect := true, outputFile := outputFile }
      else redirectLoop fuel (i + 1) st

/-- The vector `execv` reads from `args`: the entries before the first NULL. -/
def argvOf : List (Option CStr) → List CStr
  | [] => []
  | none :: _ => []
  | some a :: rest => a :: argvOf rest

/-- The loop of lines 181-203 from index `j` on, followed by lines 205-208;
the first argument is `numPaths - j`. -/
def searchLoop (os : OS) (searchPaths : List CStr) (args : List (Option CStr)) :
    Nat → Nat → Run
  | 0, _ => ⟨[Event.errorMessage], Outcome.returned⟩
  | n + 1, j =>
    match searchPaths.get? j, args.getD 0 none with
    | some dir, some arg0 =>
      let path := dir ++ "/".toList ++ arg0
      if os.access path then
        if os.execvOk path (argvOf args) then
          ⟨[Event.execv path (argvOf args)], Outcome.replaced⟩
        else
          ⟨[Event.execv path (argvOf args), Event.errorMessage], Outcome.undefined⟩
      else searchLoop os searchPaths args n (j + 1)
    | _, _ => ⟨[], Outcome.undefined⟩

/-- Lines 172-209: the lookup of the program in the path table. -/
def resolveAndExec (os : OS) (sh : Shell) (args : List (Option CStr)) : Run :=
  match sh.searchPaths with
  | none => ⟨[Event.errorMessage], Outcome.returned⟩
  | some ps => searchLoop os ps args sh.numPaths 0

/-- Lines 135-209 of `ExecuteCommand`, for the vector `toks` that
`setupCommands` returned. -/
def ExecuteArgs (os : OS) (sh : Shell) (toks : List CStr) : Run :=
  let args0 : List (Option CStr) := toks.map some ++ [none]
  match redirectLoop args0.length 0 ⟨args0, false, none⟩ with
  | none => ⟨[Event.errorMessage], Outcome.returned⟩
  | some st =>
    if st.outputRedirect then
      match st.outputFile with
      | none => ⟨[], Outcome.undefined⟩
      | some file =>
        let opening := Event.openFile file
          [OpenFlag.O_WRONLY, OpenFlag.O_CREAT, OpenFlag.O_TRUNC] 0o644
        match os.openFd file with
        | none => ⟨[opening, Event.errorMessage], Outcome.returned⟩
        | some fd =>
          let r := resolveAndExec os sh st.args
          ⟨[opening, Event.dup2 fd 1, Event.close fd] ++ r.events, r.outcome⟩
    else resolveAndExec os sh st.args

/-- `ExecuteCommand(command)`.  With no token at all `strdup(args[0])` at line
314 reads a NULL pointer. -/
def ExecuteCommand (os : OS) (sh : Shell) (command : Mem) : Run :=
  match setupCommands command with
  | [] => ⟨[], Outcome.undefined⟩
  | tok :: toks => ExecuteArgs os sh (tok :: toks)

/-! ## The built-ins (rush.c 322-391) -/

/-- What a step of the shell process leaves behind: the globals, the events,
and the status the shell exited with, if it did. -/
structure Step where
  shell : Shell
  events : List Event
  status : Option Nat
  deriving DecidableEq, Repr

/-- `changeDirectory(args)`: the events. -/
def changeDirectory (os : OS) (args : List CStr) : List Event :=
  match args with
  | [] => []
  | arg0 :: rest =>
    if arg0 = "cd".toList then
      match rest with
      | [] => [Event.errorMessage]
      | dir :: _ =>
        if os.chdirOk dir then [Event.chdir dir]
        else [Event.chdir dir, Event.errorMessage]
    else []

/-- `exitCommand(command)`. -/
def exitCommand (sh : Shell) (command : Mem) : Step :=
  match setupCommands command with
  | [] => ⟨sh, [], none⟩
  | arg0 :: rest =>
    if arg0 = "exit".toList then
      match rest with
      | [] => ⟨sh, [], some 0⟩
      | _ :: _ => ⟨sh, [Event.errorMessage], none⟩
    else ⟨sh, [], none⟩

/-- `pathCommand(command)`: the globals it leaves.  `trimWhitespace` has
worked in place and `command` still points at the first byte, so the two
`strsep` loops read the trimmed memory from its start. -/
def pathCommand (command : Mem) : Shell :=
  let t := trimWhitespace command
  if rd t.2 0 = NUL then { searchPaths := none, numPaths := 0 }
  else
    let mem := t.1 ++ t.2
    { searchPaths := some (strsepTokens (cstr mem)), numPaths := CountArgs mem }

/-! ## One iteration of the loop of EnterShell (rush.c 63-120) -/

/-- Lines 63-66: the first newline of the line becomes the terminator. -/
def stripNewline : Mem → Mem
  | [] => []
  | c :: cs =>
    if c = NUL then c :: cs
    else if c = '\n' then NUL :: cs
    else c :: stripNewline cs

/-- Lines 77-83: `cleanedBuffer`, the line without its spaces and tabs. -/
def cleanedBuffer (buffer : Mem) : CStr :=
  (cstr buffer).filter (fun c => c != ' ' && c != '\t')

/-- The test `strncmp(a, lit, n) == 0`. -/
def strncmpEq : Mem → Mem → Nat → Bool
  | _, _, 0 => true
  | a, b, n + 1 =>
    if rd a 0 ≠ rd b 0 then false
    else if rd a 0 = NUL then true
    else strncmpEq a.tail b.tail n

/-- The loop of lines 107-117 over the pieces `strsep(&commands, "&")`
returns: one `fork` for every piece that is not empty once trimmed, and an
error message in the shell when the `fork` fails.  `n` counts the calls. -/
def forkLoop (os : OS) : Nat → List CStr → List Event
  | _, [] => []
  | n, piece :: rest =>
    let command := (trimWhitespace piece).2
    if rd command 0 = NUL then forkLoop os n rest
    else
      Event.fork (cstr command) ::
        ((if os.forkOk n then [] else [Event.errorMessage]) ++ forkLoop os (n + 1) rest)

/-- Where the pointer `buffer` of `EnterShell` points.  `getline` and `free`
may only be handed NULL or the start of a block that `malloc` returned and
that is still allocated. -/
inductive BufferPtr
  /-- NULL (line 51), or the start of the block `getline` allocated. -/
  | block
  /-- Line 68 moved the pointer past leading white space: it points into the
  block, not at its start. -/
  | interior
  /-- The pointer stood at the start of the block and `free(buffer)` was called
  on it (line 59 or 89): it dangles. -/
  | freed
  /-- Line 89 called `free(buffer)` on a pointer into the block: undefined
  behaviour, the model says nothing about what follows. -/
  | invalidFree
  deriving DecidableEq, Repr

/-- Line 68, `buffer = trimWhitespace(buffer);`: the pointer is moved past the
bytes `trimWhitespace` skipped, so it stays at the start of the block only
when nothing was skipped. -/
def advance (skipped : Mem) : BufferPtr :=
  if skipped.isEmpty then BufferPtr.block else BufferPtr.interior

/-- Line 89, `free(buffer);`, on the pointer line 68 left. -/
def freeBuffer : BufferPtr → BufferPtr
  | BufferPtr.block => BufferPtr.freed
  | _ => BufferPtr.invalidFree

/-- What one iteration of the loop of `EnterShell` leaves behind: the step of
the shell process, and where the pointer `buffer` points afterwards. -/
structure Iteration extends Step where
  buffer : BufferPtr
  deriving DecidableEq, Repr

/-- The body of the `while (1)` of `EnterShell` after a successful `getline`:
`buffer0` is the memory `getline` filled (the line, its terminator, and
whatever the block held behind it), `buffer` the pointer after line 68. -/
def EnterShellBody (os : OS) (sh : Shell) (buffer0 : Mem) : Iteration :=
  let trimmed := trimWhitespace (stripNewline buffer0)
  let buffer := trimmed.2
  let ptr := advance trimmed.1
  if (cleanedBuffer buffer).head? = some '>' then
    ⟨⟨sh, [Event.errorMessage], none⟩, freeBuffer ptr⟩
  else if strncmpEq buffer "exit".toList 4 then ⟨exitCommand sh buffer, ptr⟩
  else if strncmpEq buffer "cd".toList 2 then
    ⟨⟨sh, changeDirectory os (setupCommands buffer), none⟩, ptr⟩
  else if strncmpEq buffer "path".toList 4 then ⟨⟨pathCommand (buffer.drop 5), [], none⟩, ptr⟩
  else if rd buffer 0 = NUL then ⟨⟨sh, [], none⟩, ptr⟩
  else ⟨⟨sh, forkLoop os 0 (strsepAll '&' [] (cstr buffer)) ++ [Event.waitAll], none⟩, ptr⟩

/-- The child created by `fork`: lines 112-113, `ExecuteCommand(command); exit(0);`.
The result is the run of `ExecuteCommand` and the status of the `exit` that
follows when it returns. -/
def childProcess (os : OS) (sh : Shell) (command : Mem) : Run × Option Nat :=
  let r := ExecuteCommand os sh command
  (r, if r.outcome = Outcome.returned then some 0 else none)


/-! ## The loop of EnterShell and main (rush.c 50-124, 409-418) -/

/-- What the shell process does in the loop of `EnterShell`, in order. -/
inductive LoopEvent
  /-- Lines 55-56: `printf("rush> "); fflush(stdout);`. -/
  | prompt
  /-- Line 58: a call of `getline`; `some buffer` is the memory it filled,
  `none` is the result -1. -/
  | getline (result : Option Mem)
  /-- A system call of the loop body (lines 63-120). -/
  | call (e : Event)
  /-- A call `free(buffer)` on the start of the block: line 59, after a failed
  `getline`, or line 89, after a line that starts with `>`. -/
  | freeBuffer
  /-- A call `exit(status)` of the shell process. -/
  | exitShell (status : Nat)
  deriving DecidableEq, Repr

/-- How the run of the shell process ends. -/
inductive LoopEnd
  /-- The shell called `exit(status)`. -/
  | exited (status : Nat)
  /-- The loop is about to hand `getline` the pointer it has freed; the model
  says nothing about what follows. -/
  | freedBuffer
  /-- The loop is about to hand `getline` a pointer into the block, with the
  size of the whole block: `getline` may write past the end of the block and
  passes the pointer to `realloc` when the line is long.  The model says
  nothing about what follows. -/
  | interiorBuffer
  /-- Line 89 called `free` on a pointer into the block; the model says nothing
  about what follows. -/
  | invalidFree
  deriving DecidableEq, Repr

/-- The events of the shell process and how it ends. -/
structure LoopRun where
  events : List LoopEvent
  ending : LoopEnd
  deriving DecidableEq, Repr

/-- What line 89 adds to the events of the loop: the call `free(buffer)` when
the iteration has freed the block.  A `free` of a pointer into the block is
where the run of the model ends, and is not listed. -/
def freeEvents : BufferPtr → List LoopEvent
  | BufferPtr.freed => [LoopEvent.freeBuffer]
  | _ => []

/-- The `while (1)` of lines 54-121, entered with the pointer `buffer` in the
given state.  `input` lists the buffers the successful calls of `getline`
fill, one per line of standard input; once they are used up `getline` returns
-1.  Every iteration prints the prompt and then calls `getline(&buffer, ...)`:
the run of the model ends there when the pointer is not one `getline` may be
given.  At the end of input lines 59-60 run `free(buffer); continue;`, so the
loop prints the prompt again and calls `getline` again, with the freed
pointer.  After a line the loop goes on with the pointer the iteration left:
line 68 never moves it back to the start of the block. -/
def EnterShellFrom (os : OS) : BufferPtr → Shell → List Mem → LoopRun
  | BufferPtr.invalidFree, _, _ => ⟨[], LoopEnd.invalidFree⟩
  | BufferPtr.interior, _, _ => ⟨[LoopEvent.prompt], LoopEnd.interiorBuffer⟩
  | BufferPtr.freed, _, _ => ⟨[LoopEvent.prompt], LoopEnd.freedBuffer⟩
  | BufferPtr.block, _, [] =>
    ⟨[LoopEvent.prompt, LoopEvent.getline none, LoopEvent.freeBuffer, LoopEvent.prompt],
      LoopEnd.freedBuffer⟩
  | BufferPtr.block, sh, buffer :: rest =>
    let step := EnterShellBody os sh buffer
    let head := LoopEvent.prompt :: LoopEvent.getline (some buffer) ::
      step.events.map LoopEvent.call
    match step.status with
    | some status => ⟨head ++ [LoopEvent.exitShell status], LoopEnd.exited status⟩
    | none =>
      ⟨head ++ freeEvents step.buffer ++ (EnterShellFrom os step.buffer step.shell rest).events,
        (EnterShellFrom os step.buffer step.shell rest).ending⟩

/-- `EnterShell()`: the loop entered with `buffer = NULL` (line 51). -/
def EnterShell (os : OS) (sh : Shell) (input : List Mem) : LoopRun :=
  EnterShellFrom os BufferPtr.block sh input

/-- `main(argc, argv)`: with an argument `ErrorHandler(1)` writes the message
and exits with status 1; otherwise the path table is initialised and the loop
entered. -/
def main (os : OS) (argc : Nat) (input : List Mem) : LoopRun :=
  if argc > 1 then
    ⟨[LoopEvent.call Event.errorMessage, LoopEvent.exitShell 1], LoopEnd.exited 1⟩
  else EnterShell os initializeSearchPaths input

/-! ## Reference definitions the code is compared with -/

/-- What `trimWhitespace` is expected to return for the string `s`: tabs
turned into spaces, leading and trailing white space removed. -/
def trimSpec (s : CStr) : CStr :=
  ((s.map (fun c => if c = '\t' then ' ' else c)).dropWhile isspace).rdropWhile isspace

/-- The word being read, as a token: nothing when it is empty. -/
def flush (cur : CStr) : List CStr := if cur.isEmpty then [] else [cur]

/-- Reference tokenizer, following the words of the specification: a
separator ends the word being read and gives no token, `>` ends the word being
read and is a token of its own, any other character extends the word being
read.  `sep` says which characters are separators. -/
def lexGo (sep : Char → Bool) : CStr → CStr → List CStr
  | cur, [] => flush cur
  | cur, c :: cs =>
    if sep c then flush cur ++ lexGo sep [] cs
    else if c = '>' then flush cur ++ (['>'] :: lexGo sep [] cs)
    else lexGo sep (cur ++ [c]) cs

/-- The tokens of a line according to the specification, for a given set of
separators. -/
def specTokens (sep : Char → Bool) (s : CStr) : List CStr := lexGo sep [] s

/-- The separators the specification names: space and horizontal tab. -/
def blank (c : Char) : Bool := c = ' ' || c = '\t'

/-- Tokens joined by single spaces. -/
def joinTokens : List CStr → CStr
  | [] => []
  | [t] => t
  | t :: u :: rest => t ++ ' ' :: joinTokens (u :: rest)

/-- The non-empty pieces of `s` cut at spaces, when `cur` has been read
already: the strsep loop started in the middle of a piece. -/
def tokensFrom (cur s : CStr) : List CStr :=
  (strsepAll ' ' cur s).filter (fun t => !t.isEmpty)

/-- The tokens that are complete once `out` has been written after `cur`. -/
def doneTokens : CStr → CStr → List CStr
  | _, [] => []
  | cur, c :: cs =>
    if c = ' ' then flush cur ++ doneTokens [] cs else doneTokens (cur ++ [c]) cs

/-- The piece still open once `out` has been written after `cur`. -/
def pending : CStr → CStr → CStr
  | cur, [] => cur
  | cur, c :: cs => if c = ' ' then pending [] cs else pending (cur ++ [c]) cs

/-- A character that can stand inside a word: no white space, not `>`, not
the terminator. -/
def wordChar (c : Char) : Bool := !isspace c && c != '>' && c != NUL

/-- A token as `setupCommands` returns them: the single character `>`, or a
non-empty run of word characters. -/
def IsToken (t : CStr) : Prop := t = ['>'] ∨ (t ≠ [] ∧ ∀ c ∈ t, wordChar c = true)

/-- The tokens a redirection adds behind the words of a command: none, or
`>` and the target. -/
def redirectTokens : Option CStr → List CStr
  | none => []
  | some f => [['>'], f]

/-- The `open` call of line 161. -/
def openCall (file : CStr) : Event :=
  Event.openFile file [OpenFlag.O_WRONLY, OpenFlag.O_CREAT, OpenFlag.O_TRUNC] 0o644

/-- The run of a command with redirection target `target`, given the run `r`
of the lookup that follows: nothing is added without a target; with a target
the file is opened, and the lookup happens only if that succeeds. -/
def redirected (os : OS) (target : Option CStr) (r : Run) : Run :=
  match target with
  | none => r
  | some f =>
    match os.openFd f with
    | none => ⟨[openCall f, Event.errorMessage], Outcome.returned⟩
    | some fd => ⟨[openCall f, Event.dup2 fd 1, Event.close fd] ++ r.events, r.outcome⟩

/-- What the descriptors of a process refer to; `none` is a closed descriptor. -/
abbrev FdTable := Nat → Option CStr

/-- The effect of one system call on the descriptor table (POSIX `open`,
`dup2` and `close`). -/
def fdStep (os : OS) (t : FdTable) : Event → FdTable
  | Event.openFile file _ _ =>
    match os.openFd file with
    | some fd => Function.update t fd (some file)
    | none => t
  | Event.dup2 oldfd newfd =>
    match t oldfd with
    | some file => Function.update t newfd (some file)
    | none => t
  | Event.close fd => Function.update t fd none
  | _ => t

/-- The descriptor table after a sequence of system calls. -/
def fdAfter (os : OS) (t : FdTable) (events : List Event) : FdTable :=
  events.foldl (fdStep os) t

/-- An operating system for the examples: `/bin/ls` is the only executable
file, `open` returns descriptor 3, `execv`, `chdir` and `fork` succeed. -/
def sampleOS : OS :=
  { access := fun p => p = "/bin/ls".toList
    openFd := fun _ => some 3
    execvOk := fun _ _ => true
    chdirOk := fun _ => true
    forkOk := fun _ => true }

/-- A descriptor table for the examples: every descriptor refers to the
terminal. -/
def sampleFds : FdTable := fun _ => some "/dev/tty".toList

/-- The tab-to-space map of the first loop of `trimWhitespace`. -/
def untab (c : Char) : Char := if c = '\t' then ' ' else c

/-- Words written one after the other, each behind its own gap. -/
def gapped : List (CStr × CStr) → CStr
  | [] => []
  | item :: rest => item.1 ++ item.2 ++ gapped rest

/-- A directory name, or any other word of a `path` line: not empty, without
white space and without the terminator. -/
def IsWord (d : CStr) : Prop := d ≠ [] ∧ ∀ c ∈ d, isspace c = false ∧ c ≠ NUL

instance (d : CStr) : Decidable (IsWord d) := by
  unfold IsWord
  infer_instance

/-- A gap of a `path` line and the word behind it: the gap is a non-empty run of
spaces and tabs. -/
def IsItem (item : CStr × CStr) : Prop :=
  item.1 ≠ [] ∧ (∀ c ∈ item.1, blank c = true) ∧ IsWord item.2

instance (item : CStr × CStr) : Decidable (IsItem item) := by
  unfold IsItem
  infer_instance

/-- The events of the calls of `fork` for the commands `cmds`, the first of
them being call number `n`: each call, followed by an error message of the
shell when it fails. -/
def forkEvents (os : OS) : Nat → List CStr → List Event
  | _, [] => []
  | n, c :: cs =>
    Event.fork c :: ((if os.forkOk n then [] else [Event.errorMessage]) ++ forkEvents os (n + 1) cs)

/-- One more byte is needed in front of a `>` when something other than a
space was written last. -/
def padCredit (out : CStr) : Nat := if out ≠ [] ∧ out.getLast? ≠ some ' ' then 1 else 0

/-- An operating system for the examples in which `/bin/ls` passes the
`access` test but `execv` fails. -/
def noExecOS : OS :=
  { access := fun p => p = "/bin/ls".toList
    openFd := fun _ => some 3
    execvOk := fun _ _ => false
    chdirOk := fun _ => true
    forkOk := fun _ => true }

/-- Whether an event is a call of `fork`. -/
def Event.isFork : Event → Bool
  | Event.fork _ => true
  | _ => false

/-! ## C strings -/

theorem isspace_NUL : isspace NUL = false := by decide

theorem cstr_eq_self {s : CStr} (h : NUL ∉ s) : cstr s = s := by
  induction s with
  | nil => rfl
  | cons c cs ih =>
    simp only [List.mem_cons, not_or] at h
    have hc : c ≠ NUL := fun e => h.1 e.symm
    simp [cstr, hc, ih h.2]

theorem NUL_not_mem_cstr (m : Mem) : NUL ∉ cstr m := by
  induction m with
  | nil => simp [cstr]
  | cons c cs ih =>
    unfold cstr
    split
    · simp
    · rename_i hc
      simp only [List.mem_cons, not_or]
      exact ⟨fun e => hc e.symm, ih⟩

theorem cstr_append_NUL (s : CStr) (h : NUL ∉ s) (rest : Mem) :
    cstr (s ++ NUL :: rest) = s := by
  induction s with
  | nil => simp [cstr]
  | cons c cs ih =>
    simp only [List.mem_cons, not_or] at h
    have hc : c ≠ NUL := fun e => h.1 e.symm
    simp [cstr, hc, ih h.2]

theorem strlen_eq (m : Mem) : strlen m = (cstr m).length := by
  induction m with
  | nil => rfl
  | cons c cs ih =>
    unfold strlen cstr
    split <;> simp [ih]

theorem rd_zero_eq_NUL_iff (m : Mem) : rd m 0 = NUL ↔ cstr m = [] := by
  cases m with
  | nil => simp [rd, cstr]
  | cons c cs =>
    by_cases hc : c = NUL <;> simp [rd, cstr, hc]

theorem rd_of_lt_strlen (m : Mem) (i : Nat) (h : i < (cstr m).length) :
    (cstr m)[i]? = some (rd m i) := by
  induction m generalizing i with
  | nil => simp [cstr] at h
  | cons c cs ih =>
    by_cases hc : c = NUL
    · simp [cstr, hc] at h
    · cases i with
      | zero => simp [cstr, hc, rd]
      | succ j =>
        simp only [cstr, hc, if_false, List.length_cons, Nat.add_lt_add_iff_right] at h
        have := ih j h
        simpa [cstr, hc, rd] using this

theorem cstr_set_NUL (m : Mem) (i : Nat) : cstr (m.set i NUL) = (cstr m).take i := by
  induction m generalizing i with
  | nil => simp [cstr]
  | cons c cs ih =>
    cases i with
    | zero => simp [cstr]
    | succ j =>
      by_cases hc : c = NUL
      · simp [cstr, hc]
      · simp [cstr, hc, ih j]

theorem cstr_normalizeTabs (m : Mem) :
    cstr (normalizeTabs m) = (cstr m).map (fun c => if c = '\t' then ' ' else c) := by
  induction m with
  | nil => rfl
  | cons c cs ih =>
    by_cases hc : c = NUL
    · simp [normalizeTabs, cstr, hc]
    · by_cases ht : c = '\t'
      · subst ht
        have : (' ' : Char) ≠ NUL := by decide
        simp [normalizeTabs, cstr, hc, this, ih]
      · simp [normalizeTabs, cstr, hc, ht, ih]

theorem cstr_drop_skipSpaces (m : Mem) :
    cstr (m.drop (skipSpaces m)) = (cstr m).dropWhile isspace := by
  induction m with
  | nil => rfl
  | cons c cs ih =>
    by_cases hs : isspace c = true
    · have hc : c ≠ NUL := by
        intro e; rw [e, isspace_NUL] at hs; exact Bool.false_ne_true hs
      simp [skipSpaces, hs, cstr, hc, ih]
    · by_cases hc : c = NUL
      · simp [skipSpaces, hs, cstr, hc]
      · simp [skipSpaces, hs, cstr, hc]

theorem take_backLoop (str : Mem) (n : Nat) (hn : n < (cstr str).length)
    (h0 : isspace (rd str 0) = false) :
    (cstr str).take (backLoop str n + 1) = ((cstr str).take (n + 1)).rdropWhile isspace := by
  induction n with
  | zero =>
    have h := rd_of_lt_strlen str 0 hn
    rw [backLoop, List.take_succ, h]
    simp [List.rdropWhile, h0]
  | succ e ih =>
    have h := rd_of_lt_strlen str (e + 1) hn
    rw [List.take_succ (n := e + 1), h]
    simp only [Option.toList_some, List.rdropWhile_concat]
    unfold backLoop
    by_cases hs : isspace (rd str (e + 1)) = true
    · simp only [hs, if_true]
      exact ih (by omega)
    · simp only [hs, if_false, Bool.false_eq_true]
      rw [List.take_succ (n := e + 1), h]
      simp

/-- The string the pointer returned by `trimWhitespace` points at. -/
theorem cstr_trimWhitespace (m : Mem) : cstr (trimWhitespace m).2 = trimSpec (cstr m) := by
  unfold trimWhitespace trimSpec
  simp only
  have hd := cstr_drop_skipSpaces (normalizeTabs m)
  rw [cstr_normalizeTabs] at hd
  by_cases h0 : rd (List.drop (skipSpaces (normalizeTabs m)) (normalizeTabs m)) 0 = NUL
  · rw [if_pos h0]
    have he := (rd_zero_eq_NUL_iff _).1 h0
    rw [← hd, he]; rfl
  · rw [if_neg h0]
    simp only [cstr_set_NUL]
    set str := List.drop (skipSpaces (normalizeTabs m)) (normalizeTabs m) with hstr
    have hne : cstr str ≠ [] := fun e => h0 ((rd_zero_eq_NUL_iff _).2 e)
    have hlen : 0 < (cstr str).length := List.length_pos.2 hne
    have hsp : isspace (rd str 0) = false := by
      have h1 := rd_of_lt_strlen str 0 hlen
      rw [hd] at h1
      cases hdw : List.dropWhile isspace
          (List.map (fun c => if c = '\t' then ' ' else c) (cstr m)) with
      | nil => rw [hdw] at h1; simp at h1
      | cons x xs =>
        rw [hdw] at h1
        simp only [List.getElem?_cons_zero, Option.some.injEq] at h1
        have := List.head_dropWhile_not isspace
          (List.map (fun c => if c = '\t' then ' ' else c) (cstr m)) (by rw [hdw]; simp)
        simp only [hdw, List.head_cons] at this
        rw [← h1]; simpa using this
    have := take_backLoop str (strlen str - 1) (by rw [strlen_eq]; omega) hsp
    rw [this, strlen_eq, ← hd]
    congr 1
    apply List.take_of_length_le
    omega

/-! ## The strsep loop -/

theorem tokensFrom_nil (cur : CStr) : tokensFrom cur [] = flush cur := by
  cases cur <;> simp [tokensFrom, strsepAll, flush]

theorem tokensFrom_space (cur s : CStr) :
    tokensFrom cur (' ' :: s) = flush cur ++ tokensFrom [] s := by
  cases cur <;> simp [tokensFrom, strsepAll, flush]

theorem tokensFrom_cons (cur s : CStr) (c : Char) (h : c ≠ ' ') :
    tokensFrom cur (c :: s) = tokensFrom (cur ++ [c]) s := by
  simp [tokensFrom, strsepAll, h]

theorem strsepTokens_eq (s : CStr) : strsepTokens s = tokensFrom [] s := rfl

theorem tokensFrom_append (cur out rest : CStr) :
    tokensFrom cur (out ++ rest) = doneTokens cur out ++ tokensFrom (pending cur out) rest := by
  induction out generalizing cur with
  | nil => simp [doneTokens, pending]
  | cons c cs ih =>
    by_cases hc : c = ' '
    · subst hc
      simp [tokensFrom_space, doneTokens, pending, ih]
    · simp [tokensFrom_cons _ _ _ hc, doneTokens, pending, hc, ih]

theorem doneTokens_append (cur a b : CStr) :
    doneTokens cur (a ++ b) = doneTokens cur a ++ doneTokens (pending cur a) b := by
  induction a generalizing cur with
  | nil => simp [doneTokens, pending]
  | cons c cs ih =>
    by_cases hc : c = ' ' <;> simp [doneTokens, pending, hc, ih]

theorem pending_append (cur a b : CStr) :
    pending cur (a ++ b) = pending (pending cur a) b := by
  induction a generalizing cur with
  | nil => simp [pending]
  | cons c cs ih =>
    by_cases hc : c = ' ' <;> simp [pending, hc, ih]

theorem pending_eq_nil_iff (out : CStr) :
    pending [] out = [] ↔ ¬ (out ≠ [] ∧ out.getLast? ≠ some ' ') := by
  induction out using List.reverseRecOn with
  | nil => simp [pending]
  | append_singleton o c _ =>
    rw [pending_append]
    by_cases hc : c = ' '
    · subst hc; simp [pending]
    · simp [pending, hc]

/-! ## The reference tokenizer -/

theorem lexGo_dropWhile (sep : Char → Bool) (s : CStr) :
    lexGo sep [] (s.dropWhile sep) = lexGo sep [] s := by
  induction s with
  | nil => rfl
  | cons c cs ih =>
    by_cases hc : sep c = true
    · simp [List.dropWhile, hc, lexGo, flush, ih]
    · simp [List.dropWhile, hc]

/-- The strsep loop over the normalised string gives the tokens of the
reference tokenizer, from any state of the normalising loop. -/
theorem tokens_normalizeLoop (fuel : Nat) (src out : CStr) (h : src.length < fuel) :
    tokensFrom [] (normalizeLoop fuel src out) =
      doneTokens [] out ++ lexGo isspace (pending [] out) src := by
  induction fuel generalizing src out with
  | zero => omega
  | succ fuel ih =>
    cases src with
    | nil =>
      have := tokensFrom_append [] out []
      simp only [List.append_nil] at this
      simp [normalizeLoop, lexGo, this, tokensFrom_nil]
    | cons c rest =>
      simp only [List.length_cons, Nat.add_lt_add_iff_right] at h
      unfold normalizeLoop
      by_cases hs : isspace c = true
      · have hlen : (rest.dropWhile isspace).length < fuel :=
          lt_of_le_of_lt (List.Sublist.length_le (List.dropWhile_sublist _)) h
        have hp : pending [] (out ++ [' ']) = [] := by
          rw [pending_append]; simp [pending]
        have hd : doneTokens [] (out ++ [' ']) = doneTokens [] out ++ flush (pending [] out) := by
          rw [doneTokens_append]; simp [doneTokens]
        rw [if_pos hs, ih _ _ hlen, hp, hd, lexGo_dropWhile]
        simp [lexGo, hs]
      · rw [if_neg hs]
        have hsp : c ≠ ' ' := by
          intro e; rw [e] at hs; exact hs (by decide)
        by_cases hgt : c = '>'
        · subst hgt
          rw [if_pos rfl]
          simp only
          rw [ih _ _ h]
          have hflush : ∀ o : CStr,
              doneTokens [] (if o ≠ [] ∧ o.getLast? ≠ some ' ' then o ++ [' '] else o) =
                doneTokens [] o ++ flush (pending [] o) ∧
              pending [] (if o ≠ [] ∧ o.getLast? ≠ some ' ' then o ++ [' '] else o) = [] := by
            intro o
            by_cases ho : o ≠ [] ∧ o.getLast? ≠ some ' '
            · rw [if_pos ho, doneTokens_append, pending_append]
              simp [doneTokens, pending]
            · rw [if_neg ho]
              have := (pending_eq_nil_iff o).2 ho
              simp [this, flush]
          obtain ⟨hd, hp⟩ := hflush out
          by_cases hnext : rest.head? ≠ some ' '
          · rw [if_pos hnext]
            simp only [doneTokens_append, pending_append, hd, hp]
            simp [doneTokens, pending, lexGo, hs, flush]
          · rw [if_neg hnext]
            simp only [doneTokens_append, pending_append, hd, hp]
            cases rest with
            | nil => simp at hnext
            | cons d rest2 =>
              simp only [List.head?_cons, ne_eq, Option.some.injEq, not_not] at hnext
              subst hnext
              simp [doneTokens, pending, lexGo, hs, flush, isspace]
        · rw [if_neg hgt, ih _ _ h, doneTokens_append, pending_append]
          simp [doneTokens, pending, lexGo, hs, hgt, hsp]

theorem strsepTokens_normalize (s : CStr) :
    strsepTokens (normalize s) = specTokens isspace s := by
  unfold normalize specTokens
  rw [strsepTokens_eq, tokens_normalizeLoop _ _ _ (Nat.lt_succ_self _)]
  simp [doneTokens, pending]

theorem lexGo_map_tab (cur s : CStr) :
    lexGo isspace cur (s.map (fun c => if c = '\t' then ' ' else c)) = lexGo isspace cur s := by
  induction s generalizing cur with
  | nil => rfl
  | cons c cs ih =>
    by_cases ht : c = '\t'
    · subst ht
      simp [lexGo, isspace, ih]
    · simp [lexGo, ht, ih]

theorem lexGo_spaces (sep : Char → Bool) (cur t : CStr)
    (ht : ∀ c ∈ t, sep c = true) : lexGo sep cur t = flush cur := by
  induction t generalizing cur with
  | nil => rfl
  | cons c cs ih =>
    have hc := ht c (List.mem_cons_self _ _)
    have := ih [] (fun d hd => ht d (List.mem_cons_of_mem _ hd))
    simp [lexGo, hc, this, flush]

theorem lexGo_append_spaces (sep : Char → Bool) (cur s t : CStr)
    (ht : ∀ c ∈ t, sep c = true) : lexGo sep cur (s ++ t) = lexGo sep cur s := by
  induction s generalizing cur with
  | nil => simp [lexGo_spaces sep cur t ht, lexGo]
  | cons c cs ih =>
    show lexGo sep cur (c :: (cs ++ t)) = lexGo sep cur (c :: cs)
    simp only [lexGo, ih]

theorem rdropWhile_append_suffix (p : Char → Bool) (s : CStr) :
    ∃ t, s = s.rdropWhile p ++ t ∧ ∀ c ∈ t, p c = true := by
  induction s using List.reverseRecOn with
  | nil => exact ⟨[], by simp⟩
  | append_singleton o c ih =>
    by_cases hc : p c = true
    · obtain ⟨t, h1, h2⟩ := ih
      refine ⟨t ++ [c], ?_, ?_⟩
      · rw [List.rdropWhile_concat_pos _ _ _ hc, ← List.append_assoc, ← h1]
      · intro d hd
        rcases List.mem_append.1 hd with hd | hd
        · exact h2 d hd
        · simp only [List.mem_singleton] at hd; rw [hd]; exact hc
    · exact ⟨[], by rw [List.rdropWhile_concat_neg _ _ _ hc]; simp, by simp⟩

theorem specTokens_trimSpec (s : CStr) :
    specTokens isspace (trimSpec s) = specTokens isspace s := by
  unfold specTokens trimSpec
  obtain ⟨t, h1, h2⟩ := rdropWhile_append_suffix isspace
    ((s.map (fun c => if c = '\t' then ' ' else c)).dropWhile isspace)
  have := lexGo_append_spaces isspace []
    (((s.map (fun c => if c = '\t' then ' ' else c)).dropWhile isspace).rdropWhile isspace) t h2
  rw [← h1, lexGo_dropWhile, lexGo_map_tab] at this
  exact this.symm

/-- The vector `setupCommands` returns is the token sequence of the
reference tokenizer whose separators are the `isspace` characters. -/
theorem setupCommands_eq (m : Mem) : setupCommands m = specTokens isspace (cstr m) := by
  unfold setupCommands
  rw [cstr_trimWhitespace, strsepTokens_normalize, specTokens_trimSpec]

theorem wordChar_iff (c : Char) :
    wordChar c = true ↔ isspace c = false ∧ c ≠ '>' ∧ c ≠ NUL := by
  simp [wordChar, and_assoc]

theorem lexGo_word (cur w rest : CStr) (hw : ∀ c ∈ w, isspace c = false ∧ c ≠ '>') :
    lexGo isspace cur (w ++ rest) = lexGo isspace (cur ++ w) rest := by
  induction w generalizing cur with
  | nil => simp
  | cons c cs ih =>
    obtain ⟨h1, h2⟩ := hw c (List.mem_cons_self _ _)
    have := ih (cur ++ [c]) (fun d hd => hw d (List.mem_cons_of_mem _ hd))
    simp only [List.append_assoc, List.singleton_append] at this
    simp [lexGo, h1, h2, this]

theorem flush_of_ne_nil {t : CStr} (h : t ≠ []) : flush t = [t] := by
  cases t with
  | nil => exact absurd rfl h
  | cons c cs => rfl

/-- Every token of the reference tokenizer is `>` or a non-empty word. -/
theorem lexGo_isToken (cur s : CStr) (hcur : ∀ c ∈ cur, wordChar c = true)
    (hs : NUL ∉ s) : ∀ t ∈ lexGo isspace cur s, IsToken t := by
  have hflush : ∀ t ∈ flush cur, IsToken t := by
    intro t ht
    cases cur with
    | nil => simp [flush] at ht
    | cons c cs =>
      simp only [flush, List.isEmpty_cons, Bool.false_eq_true, if_false,
        List.mem_singleton] at ht
      subst ht
      exact Or.inr ⟨by simp, hcur⟩
  induction s generalizing cur with
  | nil => simpa [lexGo] using hflush
  | cons c cs ih =>
    simp only [List.mem_cons, not_or] at hs
    have hnil : ∀ t ∈ lexGo isspace [] cs, IsToken t :=
      ih [] (by simp) hs.2 (by simp [flush])
    intro t ht
    unfold lexGo at ht
    split at ht
    · rcases List.mem_append.1 ht with h | h
      · exact hflush t h
      · exact hnil t h
    · split at ht
      · rcases List.mem_append.1 ht with h | h
        · exact hflush t h
        · rcases List.mem_cons.1 h with h | h
          · exact Or.inl h
          · exact hnil t h
      · rename_i h1 h2
        have hc : wordChar c = true := by
          rw [wordChar_iff]
          exact ⟨by simpa using h1, h2, fun e => hs.1 e.symm⟩
        have hcur2 : ∀ d ∈ cur ++ [c], wordChar d = true := by
          intro d hd
          rcases List.mem_append.1 hd with hd | hd
          · exact hcur d hd
          · simp only [List.mem_singleton] at hd; rw [hd]; exact hc
        refine ih (cur ++ [c]) hcur2 hs.2 ?_ t ht
        intro u hu
        rw [flush_of_ne_nil (by simp)] at hu
        simp only [List.mem_singleton] at hu
        subst hu
        exact Or.inr ⟨by simp, hcur2⟩

theorem lexGo_token_then (t rest : CStr) (ht : IsToken t) :
    lexGo isspace [] (t ++ ' ' :: rest) = t :: lexGo isspace [] rest := by
  rcases ht with rfl | ⟨hne, hw⟩
  · simp [lexGo, isspace, flush]
  · rw [lexGo_word [] t _ (fun c hc => by
      have := (wordChar_iff c).1 (hw c hc); exact ⟨this.1, this.2.1⟩)]
    simp [lexGo, isspace, flush_of_ne_nil hne]

theorem lexGo_token (t : CStr) (ht : IsToken t) : lexGo isspace [] t = [t] := by
  rcases ht with rfl | ⟨hne, hw⟩
  · simp [lexGo, isspace, flush]
  · have := lexGo_word [] t [] (fun c hc => by
      have := (wordChar_iff c).1 (hw c hc); exact ⟨this.1, this.2.1⟩)
    simp only [List.append_nil, List.nil_append] at this
    rw [this]
    simp [lexGo, flush_of_ne_nil hne]

theorem NUL_not_mem_token {t : CStr} (ht : IsToken t) : NUL ∉ t := by
  rcases ht with rfl | ⟨_, hw⟩
  · decide
  · intro h
    exact ((wordChar_iff _).1 (hw _ h)).2.2 rfl

theorem NUL_not_mem_joinTokens (ts : List CStr) (h : ∀ t ∈ ts, IsToken t) :
    NUL ∉ joinTokens ts := by
  induction ts with
  | nil => simp [joinTokens]
  | cons t rest ih =>
    have ht := NUL_not_mem_token (h t (List.mem_cons_self _ _))
    have hrest := ih (fun u hu => h u (List.mem_cons_of_mem _ hu))
    cases rest with
    | nil => simpa [joinTokens] using ht
    | cons u rest2 =>
      have : NUL ≠ ' ' := by decide
      simp only [joinTokens, List.mem_append, List.mem_cons, not_or]
      exact ⟨ht, this, hrest⟩

/-- Tokens joined by single spaces are read back as the same tokens. -/
theorem specTokens_joinTokens (ts : List CStr) (h : ∀ t ∈ ts, IsToken t) :
    specTokens isspace (joinTokens ts) = ts := by
  induction ts with
  | nil => rfl
  | cons t rest ih =>
    have ht := h t (List.mem_cons_self _ _)
    have hrest := ih (fun u hu => h u (List.mem_cons_of_mem _ hu))
    cases rest with
    | nil => simpa [joinTokens, specTokens] using lexGo_token t ht
    | cons u rest2 =>
      unfold specTokens at hrest ⊢
      simp only [joinTokens]
      rw [lexGo_token_then t _ ht, hrest]

theorem setupCommands_isToken (m : Mem) : ∀ t ∈ setupCommands m, IsToken t := by
  rw [setupCommands_eq]
  exact lexGo_isToken [] (cstr m) (by simp) (NUL_not_mem_cstr m)

/-! ## The tokenizer claims -/

/-- C7: for non-empty words `a` and `b` without white space, `>` or `&`,
`setupCommands` returns the three tokens `a`, `>`, `b` for each of the strings
`a>b`, `a >b`, `a> b` and `a > b`. -/
theorem setupCommands_redirect_adjacency (a b : CStr) (m : Mem)
    (ha : a ≠ []) (hb : b ≠ [])
    (ha2 : ∀ c ∈ a, isspace c = false ∧ c ≠ '>' ∧ c ≠ '&')
    (hb2 : ∀ c ∈ b, isspace c = false ∧ c ≠ '>' ∧ c ≠ '&')
    (hm : cstr m = a ++ ">".toList ++ b ∨ cstr m = a ++ " >".toList ++ b ∨
      cstr m = a ++ "> ".toList ++ b ∨ cstr m = a ++ " > ".toList ++ b) :
    setupCommands m = [a, ">".toList, b] := by
  have hwa : ∀ c ∈ a, isspace c = false ∧ c ≠ '>' := fun c hc => ⟨(ha2 c hc).1, (ha2 c hc).2.1⟩
  have hwb : ∀ c ∈ b, isspace c = false ∧ c ≠ '>' := fun c hc => ⟨(hb2 c hc).1, (hb2 c hc).2.1⟩
  have hbtok : lexGo isspace [] b = [b] := by
    have := lexGo_word [] b [] hwb
    simp only [List.append_nil, List.nil_append] at this
    rw [this]; simp [lexGo, flush_of_ne_nil hb]
  rw [setupCommands_eq, specTokens]
  rcases hm with h | h | h | h <;> rw [h, List.append_assoc, lexGo_word [] a _ hwa] <;>
    simp [lexGo, isspace, hbtok, flush, ha]

/-- Witness of C7 at `a = ls`, `b = out` and the string `ls >out`. -/
theorem setupCommands_redirect_adjacency_witness :
    setupCommands "ls >out".toList = ["ls".toList, ">".toList, "out".toList] :=
  setupCommands_redirect_adjacency "ls".toList "out".toList "ls >out".toList
    (by decide) (by decide) (by decide) (by decide) (Or.inr (Or.inl (by decide)))

/-- C8 as stated fails: a carriage return inside a run of characters that are
none of space, tab or `>` separates two words. -/
theorem setupCommands_blank_separators_counterexample :
    '&' ∉ "a\rb".toList ∧ '\n' ∉ "a\rb".toList ∧
    specTokens blank (cstr "a\rb".toList) = ["a\rb".toList] ∧
    setupCommands "a\rb".toList = ["a".toList, "b".toList] ∧
    setupCommands "a\rb".toList ≠ specTokens blank (cstr "a\rb".toList) := by
  decide

/-- C8, amended: `setupCommands` returns, from left to right, one `>` token per
`>` character and one word token per maximal run of characters that are
neither `>` nor one of the `isspace` characters (space, tab, newline,
vertical tab, form feed, carriage return); these are the separators, and an
input made only of them yields the empty sequence. -/
theorem setupCommands_tokens (m : Mem) :
    setupCommands m = specTokens isspace (cstr m) ∧
    ((∀ c ∈ cstr m, isspace c = true) → setupCommands m = []) := by
  refine ⟨setupCommands_eq m, fun h => ?_⟩
  rw [setupCommands_eq, specTokens, lexGo_spaces isspace [] _ h]
  rfl

/-- C9: tokenizing the tokens of `s` joined by single spaces gives the tokens
of `s` again. -/
theorem setupCommands_joinTokens (m : Mem) :
    setupCommands (joinTokens (setupCommands m)) = setupCommands m := by
  have htok := setupCommands_isToken m
  rw [setupCommands_eq (joinTokens (setupCommands m)),
    cstr_eq_self (NUL_not_mem_joinTokens _ htok), specTokens_joinTokens _ htok]

/-! ## ExecuteCommand -/

theorem redirectLoop_end (fuel i : Nat) (st : Redir) (h : st.args.getD i none = none) :
    redirectLoop fuel i st = some st := by
  cases fuel with
  | zero => rfl
  | succ f => simp only [redirectLoop, h]

theorem redirectLoop_word (fuel i : Nat) (st : Redir) (a : CStr)
    (h : st.args.getD i none = some a) (ha : a ≠ ">".toList) :
    redirectLoop (fuel + 1) i st = redirectLoop fuel (i + 1) st := by
  simp only [redirectLoop, h, if_neg ha]

theorem redirectLoop_second (fuel i : Nat) (st : Redir)
    (h : st.args.getD i none = some ">".toList) (hr : st.outputRedirect = true) :
    redirectLoop (fuel + 1) i st = none := by
  simp only [redirectLoop, h, hr, if_true]

theorem redirectLoop_first (fuel i : Nat) (st : Redir)
    (h : st.args.getD i none = some ">".toList) (hr : st.outputRedirect = false) :
    redirectLoop (fuel + 1) i st =
      if st.args.getD (i + 1) none = none ∨ st.args.getD (i + 2) none ≠ none then none
      else redirectLoop fuel (i + 1)
        { args := st.args.set i none, outputRedirect := true,
          outputFile := st.args.getD (i + 1) none } := by
  simp only [redirectLoop, h, hr, if_true, Bool.false_eq_true, if_false]

theorem redirectLoop_skip (k fuel i : Nat) (st : Redir)
    (h : ∀ j, j < k → ∃ a, st.args.getD (i + j) none = some a ∧ a ≠ ">".toList) :
    redirectLoop (fuel + k) i st = redirectLoop fuel (i + k) st := by
  induction k generalizing i with
  | zero => rfl
  | succ k ih =>
    obtain ⟨a, ha, hne⟩ := h 0 (Nat.succ_pos _)
    rw [Nat.add_zero] at ha
    have hstep : redirectLoop (fuel + (k + 1)) i st = redirectLoop (fuel + k) (i + 1) st :=
      redirectLoop_word (fuel + k) i st a ha hne
    rw [hstep, ih (i + 1) (fun j hj => by
      have := h (j + 1) (Nat.succ_lt_succ hj)
      rwa [show i + (j + 1) = i + 1 + j by omega] at this)]
    congr 1
    omega

theorem args_split (pre post : List CStr) (x : CStr) :
    (pre ++ x :: post).map some ++ [none] =
      pre.map some ++ some x :: (post.map some ++ [none]) := by
  simp

theorem set_at_length (pre : List CStr) (x y : Option CStr) (rest : List (Option CStr)) :
    (pre.map some ++ x :: rest).set pre.length y = pre.map some ++ y :: rest := by
  induction pre with
  | nil => rfl
  | cons a as ih => simp [ih]

theorem getD_words (pre : List CStr) (rest : List (Option CStr)) (j : Nat) (hj : j < pre.length) :
    (pre.map some ++ rest).getD j none = some (pre.get ⟨j, hj⟩) := by
  induction pre generalizing j with
  | nil => simp at hj
  | cons a as ih =>
    cases j with
    | zero => simp
    | succ j =>
      have := ih j (by simpa using hj)
      simpa using this

theorem getD_after (pre : List CStr) (rest : List (Option CStr)) (j : Nat) :
    (pre.map some ++ rest).getD (pre.length + j) none = rest.getD j none := by
  induction pre with
  | nil => simp
  | cons a as ih =>
    rw [show (a :: as).length + j = (as.length + j) + 1 by simp; omega]
    simpa using ih

theorem argvOf_words (pre : List CStr) (rest : List (Option CStr)) :
    argvOf (pre.map some ++ none :: rest) = pre := by
  induction pre with
  | nil => rfl
  | cons a as ih => simp [argvOf, ih]

theorem argvOf_args (toks : List CStr) : argvOf (toks.map some ++ [none]) = toks :=
  argvOf_words toks []

/-- A command without `>`: the scan changes nothing. -/
theorem redirectLoop_plain (toks : List CStr) (h : ">".toList ∉ toks) :
    redirectLoop (toks.map some ++ [none]).length 0 ⟨toks.map some ++ [none], false, none⟩ =
      some ⟨toks.map some ++ [none], false, none⟩ := by
  have hlen : (toks.map some ++ [none]).length = 1 + toks.length := by simp; omega
  rw [hlen, redirectLoop_skip toks.length 1 0 _ (fun j hj => by
    refine ⟨toks.get ⟨j, hj⟩, ?_, fun e => h (e ▸ List.get_mem _ _ _)⟩
    rw [Nat.zero_add]
    exact getD_words toks [none] j hj)]
  apply redirectLoop_end
  have := getD_after toks [none] 0
  simp only [Nat.add_zero, List.getD_cons_zero] at this
  rw [Nat.zero_add]
  exact this

/-- A command with a first `>` after the words `pre`: the scan accepts it
exactly when one token follows and that token is not `>`. -/
theorem redirectLoop_redirect (pre post : List CStr) (h : ">".toList ∉ pre) :
    redirectLoop ((pre ++ ">".toList :: post).map some ++ [none]).length 0
        ⟨(pre ++ ">".toList :: post).map some ++ [none], false, none⟩ =
      match post with
      | [f] =>
        if f = ">".toList then none
        else some ⟨pre.map some ++ none :: [some f, none], true, some f⟩
      | _ => none := by
  have hlen : ((pre ++ ">".toList :: post).map some ++ [none]).length =
      (post.length + 2) + pre.length := by simp; omega
  rw [hlen, args_split, redirectLoop_skip pre.length (post.length + 2) 0 _ (fun j hj => by
    refine ⟨pre.get ⟨j, hj⟩, ?_, fun e => h (e ▸ List.get_mem _ _ _)⟩
    rw [Nat.zero_add]
    exact getD_words pre _ j hj)]
  rw [Nat.zero_add]
  have h0 := getD_after pre (some ">".toList :: (post.map some ++ [none])) 0
  have h1 := getD_after pre (some ">".toList :: (post.map some ++ [none])) 1
  have h2 := getD_after pre (some ">".toList :: (post.map some ++ [none])) 2
  rw [Nat.add_zero] at h0
  simp only [List.getD_cons_zero, List.getD_cons_succ] at h0 h1 h2
  rw [show post.length + 2 = (post.length + 1) + 1 from rfl,
    redirectLoop_first _ _ _ h0 rfl, h1, h2]
  simp only [set_at_length]
  cases post with
  | nil => simp
  | cons f rest =>
    cases rest with
    | cons g rest2 => simp
    | nil =>
      have g1 := getD_after pre (none :: [some f, none]) 1
      have g2 := getD_after pre (none :: [some f, none]) 2
      simp only [List.getD_cons_zero, List.getD_cons_succ] at g1 g2
      simp only [List.map_cons, List.map_nil, List.nil_append, List.getD_cons_zero,
        List.getD_cons_succ, List.length_cons, List.length_nil, List.getD_nil,
        reduceCtorEq, ne_eq, not_true_eq_false, or_self, if_false, List.cons_append,
        set_at_length]
      by_cases hf : f = ">".toList
      · rw [if_pos hf]
        exact redirectLoop_second _ _ _ (by rw [g1, hf]) rfl
      · rw [if_neg hf, redirectLoop_word _ _ _ f g1 hf]
        exact redirectLoop_end _ _ _ g2

theorem searchLoop_congr (os : OS) (ps : List CStr) (args args2 : List (Option CStr))
    (h0 : args.getD 0 none = args2.getD 0 none) (hv : argvOf args = argvOf args2) (n j : Nat) :
    searchLoop os ps args n j = searchLoop os ps args2 n j := by
  induction n generalizing j with
  | zero => rfl
  | succ n ih => simp only [searchLoop, h0, hv, ih]

theorem resolveAndExec_congr (os : OS) (sh : Shell) (args args2 : List (Option CStr))
    (h0 : args.getD 0 none = args2.getD 0 none) (hv : argvOf args = argvOf args2) :
    resolveAndExec os sh args = resolveAndExec os sh args2 := by
  unfold resolveAndExec
  cases sh.searchPaths with
  | none => rfl
  | some ps => exact searchLoop_congr os ps args args2 h0 hv _ _

theorem ExecuteArgs_plain (os : OS) (sh : Shell) (toks : List CStr) (h : ">".toList ∉ toks) :
    ExecuteArgs os sh toks = resolveAndExec os sh (toks.map some ++ [none]) := by
  unfold ExecuteArgs
  simp only [redirectLoop_plain toks h]
  rfl

theorem ExecuteArgs_redirect (os : OS) (sh : Shell) (pre : List CStr) (f : CStr)
    (hne : pre ≠ []) (h : ">".toList ∉ pre) (hf : f ≠ ">".toList) :
    ExecuteArgs os sh (pre ++ [">".toList, f]) =
      match os.openFd f with
      | none => ⟨[openCall f, Event.errorMessage], Outcome.returned⟩
      | some fd =>
        ⟨[openCall f, Event.dup2 fd 1, Event.close fd] ++ (ExecuteArgs os sh pre).events,
          (ExecuteArgs os sh pre).outcome⟩ := by
  rw [ExecuteArgs_plain os sh pre h]
  have hcongr : resolveAndExec os sh (pre.map some ++ none :: [some f, none]) =
      resolveAndExec os sh (pre.map some ++ [none]) := by
    apply resolveAndExec_congr
    · cases pre with
      | nil => exact absurd rfl hne
      | cons a as => simp
    · rw [argvOf_words, argvOf_words]
  unfold ExecuteArgs
  simp only [redirectLoop_redirect pre [f] h, if_neg hf, if_true, hcongr]
  cases os.openFd f <;> rfl

theorem ExecuteArgs_malformed (os : OS) (sh : Shell) (pre post : List CStr)
    (h : ">".toList ∉ pre) (hpost : ∀ f, post = [f] → f = ">".toList) :
    ExecuteArgs os sh (pre ++ ">".toList :: post) =
      ⟨[Event.errorMessage], Outcome.returned⟩ := by
  unfold ExecuteArgs
  simp only [redirectLoop_redirect pre post h]
  cases post with
  | nil => rfl
  | cons f rest =>
    cases rest with
    | cons g rest2 => rfl
    | nil => simp [hpost f rfl]

/-- The lookup when the first executable candidate is at index `i`. -/
theorem searchLoop_found (os : OS) (ps : List CStr) (args : List (Option CStr))
    (w0 dir : CStr) (i : Nat) (h0 : args.getD 0 none = some w0)
    (hi : ps[i]? = some dir) (hacc : os.access (dir ++ "/".toList ++ w0) = true)
    (hmin : ∀ j d, j < i → ps[j]? = some d → os.access (d ++ "/".toList ++ w0) = false)
    (k j n : Nat) (hk : j + k = i) (hn : i < j + n) :
    searchLoop os ps args n j =
      if os.execvOk (dir ++ "/".toList ++ w0) (argvOf args) then
        ⟨[Event.execv (dir ++ "/".toList ++ w0) (argvOf args)], Outcome.replaced⟩
      else
        ⟨[Event.execv (dir ++ "/".toList ++ w0) (argvOf args), Event.errorMessage],
          Outcome.undefined⟩ := by
  induction k generalizing j n with
  | zero =>
    have hji : j = i := by omega
    subst hji
    cases n with
    | zero => omega
    | succ n =>
      simp only [searchLoop, List.get?_eq_getElem?, hi, h0, hacc, if_true]
  | succ k ih =>
    cases n with
    | zero => omega
    | succ n =>
      have hlt : j < i := by omega
      have hjlen : j < ps.length := by
        have := (List.getElem?_eq_some_iff.1 hi).1
        omega
      have hj : ps[j]? = some (ps.get ⟨j, hjlen⟩) := by
        simp [List.getElem?_eq_getElem hjlen]
      have hno := hmin j _ hlt hj
      simp only [searchLoop, List.get?_eq_getElem?, hj, h0, hno, Bool.false_eq_true, if_false]
      exact ih (j + 1) n (by omega) (by omega)

/-- The lookup when no candidate is executable. -/
theorem searchLoop_none (os : OS) (ps : List CStr) (args : List (Option CStr))
    (w0 : CStr) (h0 : args.getD 0 none = some w0)
    (hno : ∀ d ∈ ps, os.access (d ++ "/".toList ++ w0) = false)
    (n j : Nat) (hn : j + n ≤ ps.length) :
    searchLoop os ps args n j = ⟨[Event.errorMessage], Outcome.returned⟩ := by
  induction n generalizing j with
  | zero => rfl
  | succ n ih =>
    have hjlen : j < ps.length := by omega
    have hj : ps[j]? = some (ps.get ⟨j, hjlen⟩) := by
      simp [List.getElem?_eq_getElem hjlen]
    have := hno _ (List.get_mem ps j hjlen)
    simp only [searchLoop, List.get?_eq_getElem?, hj, h0, this, Bool.false_eq_true, if_false]
    exact ih (j + 1) (by omega)

/-- `ExecuteCommand` on a well-formed command: words, then nothing or `> f`. -/
theorem ExecuteCommand_wellformed (os : OS) (sh : Shell) (command : Mem) (w0 : CStr)
    (ws : List CStr) (target : Option CStr)
    (hcmd : setupCommands command = (w0 :: ws) ++ redirectTokens target)
    (hw : ">".toList ∉ w0 :: ws) (hf : target ≠ some ">".toList) :
    ExecuteCommand os sh command =
      redirected os target (resolveAndExec os sh ((w0 :: ws).map some ++ [none])) := by
  have hE : ExecuteCommand os sh command =
      ExecuteArgs os sh ((w0 :: ws) ++ redirectTokens target) := by
    unfold ExecuteCommand
    rw [hcmd]
    rfl
  rw [hE]
  cases target with
  | none =>
    simp only [redirectTokens, List.append_nil, redirected]
    exact ExecuteArgs_plain os sh _ hw
  | some f =>
    have hf2 : f ≠ ">".toList := fun e => hf (by rw [e])
    have := ExecuteArgs_redirect os sh (w0 :: ws) f (by simp) hw hf2
    rw [ExecuteArgs_plain os sh _ hw] at this
    simp only [redirectTokens, redirected]
    exact this

theorem resolveAndExec_found (os : OS) (sh : Shell) (ps : List CStr) (w0 : CStr)
    (ws : List CStr) (dir : CStr) (i : Nat)
    (hsh : sh.searchPaths = some ps) (hnum : sh.numPaths = ps.length)
    (hi : ps[i]? = some dir) (hacc : os.access (dir ++ "/".toList ++ w0) = true)
    (hmin : ∀ j d, j < i → ps[j]? = some d → os.access (d ++ "/".toList ++ w0) = false) :
    resolveAndExec os sh ((w0 :: ws).map some ++ [none]) =
      if os.execvOk (dir ++ "/".toList ++ w0) (w0 :: ws) then
        ⟨[Event.execv (dir ++ "/".toList ++ w0) (w0 :: ws)], Outcome.replaced⟩
      else
        ⟨[Event.execv (dir ++ "/".toList ++ w0) (w0 :: ws), Event.errorMessage],
          Outcome.undefined⟩ := by
  unfold resolveAndExec
  rw [hsh]
  simp only
  rw [hnum]
  have hlt := (List.getElem?_eq_some_iff.1 hi).1
  have := searchLoop_found os ps ((w0 :: ws).map some ++ [none]) w0 dir i (by simp) hi hacc hmin
    i 0 ps.length (by omega) (by omega)
  rw [argvOf_args] at this
  exact this

theorem resolveAndExec_none (os : OS) (sh : Shell) (w0 : CStr) (ws : List CStr)
    (h : sh.searchPaths = none ∨ ∃ ps, sh.searchPaths = some ps ∧ sh.numPaths = ps.length ∧
      ∀ d ∈ ps, os.access (d ++ "/".toList ++ w0) = false) :
    resolveAndExec os sh ((w0 :: ws).map some ++ [none]) =
      ⟨[Event.errorMessage], Outcome.returned⟩ := by
  unfold resolveAndExec
  rcases h with h | ⟨ps, h1, h2, h3⟩
  · rw [h]
  · rw [h1]
    simp only
    rw [h2]
    exact searchLoop_none os ps _ w0 (by simp) h3 _ 0 (by omega)

/-! ## The claims about ExecuteCommand -/

/-- C1: for a well-formed external command with words `w0 .. wn`, optionally
followed by `> f`, and a path table in which `i` is the smallest index whose
candidate `P[i] + "/" + w0` is executable, every `execv` call of
`ExecuteCommand` is for that candidate with the argument vector `[w0, .., wn]`
(no `>`, no target); the call is made whenever the redirection file, if any,
can be opened, and the image is replaced when `execv` succeeds. -/
theorem ExecuteCommand_first_executable (os : OS) (sh : Shell) (P : List CStr)
    (command : Mem) (w0 : CStr) (ws : List CStr) (target : Option CStr) (dir : CStr) (i : Nat)
    (hsh : sh.searchPaths = some P) (hnum : sh.numPaths = P.length)
    (hcmd : setupCommands command = (w0 :: ws) ++ redirectTokens target)
    (hw : ">".toList ∉ w0 :: ws) (hf : target ≠ some ">".toList)
    (hi : P[i]? = some dir) (hacc : os.access (dir ++ "/".toList ++ w0) = true)
    (hmin : ∀ j d, j < i → P[j]? = some d → os.access (d ++ "/".toList ++ w0) = false) :
    (∀ p a, Event.execv p a ∈ (ExecuteCommand os sh command).events →
      p = dir ++ "/".toList ++ w0 ∧ a = w0 :: ws) ∧
    ((∀ f, target = some f → os.openFd f ≠ none) →
      Event.execv (dir ++ "/".toList ++ w0) (w0 :: ws) ∈ (ExecuteCommand os sh command).events ∧
      (os.execvOk (dir ++ "/".toList ++ w0) (w0 :: ws) = true →
        (ExecuteCommand os sh command).outcome = Outcome.replaced)) := by
  rw [ExecuteCommand_wellformed os sh command w0 ws target hcmd hw hf,
    resolveAndExec_found os sh P w0 ws dir i hsh hnum hi hacc hmin]
  generalize dir ++ "/".toList ++ w0 = path
  generalize w0 :: ws = argv
  cases target with
  | none =>
    by_cases hx : os.execvOk path argv = true <;> simp [redirected, hx]
  | some f =>
    cases ho : os.openFd f with
    | none => simp [redirected, ho, openCall]
    | some fd =>
      by_cases hx : os.execvOk path argv = true <;> simp [redirected, ho, hx, openCall]

/-- Witness of C1: `ls -l > out` with the table `[/usr/bin, /bin]`, where only
`/bin/ls` is executable. -/
theorem ExecuteCommand_first_executable_witness :
    (∀ p a, Event.execv p a ∈ (ExecuteCommand sampleOS
        ⟨some ["/usr/bin".toList, "/bin".toList], 2⟩ "ls -l > out".toList).events →
      p = "/bin".toList ++ "/".toList ++ "ls".toList ∧ a = ["ls".toList, "-l".toList]) ∧
    ((∀ f, some "out".toList = some f → sampleOS.openFd f ≠ none) →
      Event.execv ("/bin".toList ++ "/".toList ++ "ls".toList) ["ls".toList, "-l".toList] ∈
        (ExecuteCommand sampleOS ⟨some ["/usr/bin".toList, "/bin".toList], 2⟩
          "ls -l > out".toList).events ∧
      (sampleOS.execvOk ("/bin".toList ++ "/".toList ++ "ls".toList)
          ["ls".toList, "-l".toList] = true →
        (ExecuteCommand sampleOS ⟨some ["/usr/bin".toList, "/bin".toList], 2⟩
          "ls -l > out".toList).outcome = Outcome.replaced)) :=
  ExecuteCommand_first_executable sampleOS ⟨some ["/usr/bin".toList, "/bin".toList], 2⟩
    ["/usr/bin".toList, "/bin".toList] "ls -l > out".toList "ls".toList ["-l".toList]
    (some "out".toList) "/bin".toList 1 rfl rfl (by decide) (by decide) (by decide) rfl
    (by decide) (by
      intro j d hj hd
      have hj0 : j = 0 := by omega
      subst hj0
      simp only [List.getElem?_cons_zero, Option.some.injEq] at hd
      subst hd
      decide)

/-- C2: for a command whose first token is a word and whose first `>` comes
after the words `pre`: if exactly one token `f` follows and it is a word,
`ExecuteCommand` opens `f` as the redirection target and goes on as the
command with the words `pre` does; in every other case it writes the error
message once, opens no file and executes no program. -/
theorem ExecuteCommand_redirection_syntax (os : OS) (sh : Shell) (command : Mem)
    (pre post : List CStr)
    (hcmd : setupCommands command = pre ++ ">".toList :: post)
    (hne : pre ≠ []) (hpre : ">".toList ∉ pre) :
    (∀ f, post = [f] → f ≠ ">".toList →
      (os.openFd f = none →
        ExecuteCommand os sh command = ⟨[openCall f, Event.errorMessage], Outcome.returned⟩) ∧
      (∀ fd, os.openFd f = some fd →
        ExecuteCommand os sh command =
          ⟨[openCall f, Event.dup2 fd 1, Event.close fd] ++ (ExecuteArgs os sh pre).events,
            (ExecuteArgs os sh pre).outcome⟩)) ∧
    ((∀ f, post = [f] → f = ">".toList) →
      ExecuteCommand os sh command = ⟨[Event.errorMessage], Outcome.returned⟩) := by
  have hE : ExecuteCommand os sh command = ExecuteArgs os sh (pre ++ ">".toList :: post) := by
    unfold ExecuteCommand
    rw [hcmd]
    cases pre with
    | nil => exact absurd rfl hne
    | cons a as => rfl
  rw [hE]
  refine ⟨fun f hp hf => ?_, fun hbad => ExecuteArgs_malformed os sh pre post hpre hbad⟩
  subst hp
  have := ExecuteArgs_redirect os sh pre f hne hpre hf
  constructor
  · intro ho
    rw [this, ho]
  · intro fd ho
    rw [this, ho]

/-- Witness of C2: the command `ls > a b`. -/
theorem ExecuteCommand_redirection_syntax_witness :
    (∀ f, ["a".toList, "b".toList] = [f] → f ≠ ">".toList →
      (sampleOS.openFd f = none →
        ExecuteCommand sampleOS initializeSearchPaths "ls > a b".toList =
          ⟨[openCall f, Event.errorMessage], Outcome.returned⟩) ∧
      (∀ fd, sampleOS.openFd f = some fd →
        ExecuteCommand sampleOS initializeSearchPaths "ls > a b".toList =
          ⟨[openCall f, Event.dup2 fd 1, Event.close fd] ++
              (ExecuteArgs sampleOS initializeSearchPaths ["ls".toList]).events,
            (ExecuteArgs sampleOS initializeSearchPaths ["ls".toList]).outcome⟩)) ∧
    ((∀ f, ["a".toList, "b".toList] = [f] → f = ">".toList) →
      ExecuteCommand sampleOS initializeSearchPaths "ls > a b".toList =
        ⟨[Event.errorMessage], Outcome.returned⟩) :=
  ExecuteCommand_redirection_syntax sampleOS initializeSearchPaths "ls > a b".toList
    ["ls".toList] ["a".toList, "b".toList] (by decide) (by decide) (by decide)

/-- C3 as stated fails: for `ls > out` descriptor 1 ends up referring to
`out`, descriptor 2 still refers to the terminal, and no `dup2` call has
descriptor 2 as its target. -/
theorem ExecuteCommand_stderr_counterexample :
    (ExecuteCommand sampleOS initializeSearchPaths "ls > out".toList).events =
      [openCall "out".toList, Event.dup2 3 1, Event.close 3,
        Event.execv "/bin/ls".toList ["ls".toList]] ∧
    fdAfter sampleOS sampleFds
      (ExecuteCommand sampleOS initializeSearchPaths "ls > out".toList).events 1 =
        some "out".toList ∧
    fdAfter sampleOS sampleFds
      (ExecuteCommand sampleOS initializeSearchPaths "ls > out".toList).events 2 =
        some "/dev/tty".toList ∧
    fdAfter sampleOS sampleFds
      (ExecuteCommand sampleOS initializeSearchPaths "ls > out".toList).events 2 ≠
        some "out".toList := by
  decide

theorem searchLoop_events (os : OS) (ps : List CStr) (args : List (Option CStr)) (n j : Nat) :
    ∀ e ∈ (searchLoop os ps args n j).events,
      e = Event.errorMessage ∨ ∃ p a, e = Event.execv p a := by
  induction n generalizing j with
  | zero => intro e he; simp [searchLoop] at he; exact Or.inl he
  | succ n ih =>
    intro e he
    unfold searchLoop at he
    split at he
    · simp only at he
      split at he
      · split at he
        · simp only [List.mem_singleton] at he
          exact Or.inr ⟨_, _, he⟩
        · simp only [List.mem_cons, List.mem_singleton, List.not_mem_nil, or_false] at he
          rcases he with he | he
          · exact Or.inr ⟨_, _, he⟩
          · exact Or.inl he
      · exact ih _ e he
    · simp at he

theorem resolveAndExec_events (os : OS) (sh : Shell) (args : List (Option CStr)) :
    ∀ e ∈ (resolveAndExec os sh args).events,
      e = Event.errorMessage ∨ ∃ p a, e = Event.execv p a := by
  unfold resolveAndExec
  cases sh.searchPaths with
  | none => intro e he; simp at he; exact Or.inl he
  | some ps => exact searchLoop_events os ps args _ _

theorem fdAfter_append (os : OS) (t : FdTable) (xs ys : List Event) :
    fdAfter os t (xs ++ ys) = fdAfter os (fdAfter os t xs) ys := by
  simp [fdAfter, List.foldl_append]

theorem fdAfter_inert (os : OS) (t : FdTable) (xs : List Event)
    (h : ∀ e ∈ xs, e = Event.errorMessage ∨ ∃ p a, e = Event.execv p a) :
    fdAfter os t xs = t := by
  induction xs generalizing t with
  | nil => rfl
  | cons e es ih =>
    have he : fdStep os t e = t := by
      rcases h e (List.mem_cons_self _ _) with rfl | ⟨p, a, rfl⟩ <;> rfl
    show fdAfter os (fdStep os t e) es = t
    rw [he]
    exact ih t (fun x hx => h x (List.mem_cons_of_mem _ hx))

/-- C3, amended: for a well-formed command with redirection target `f`, the
first call of the child is `open(f, O_WRONLY | O_CREAT | O_TRUNC, 0644)`; when
it returns a descriptor `fd` (other than 1 and 2, which are in use), the child
calls `dup2(fd, 1)` and `close(fd)` before any `execv`, after which descriptor
1 refers to `f` while descriptor 2 refers to what it referred to before. -/
theorem ExecuteCommand_redirects_stdout (os : OS) (sh : Shell) (command : Mem) (w0 : CStr)
    (ws : List CStr) (f : CStr) (fd : Nat)
    (hcmd : setupCommands command = (w0 :: ws) ++ [">".toList, f])
    (hw : ">".toList ∉ w0 :: ws) (hf : f ≠ ">".toList)
    (hopen : os.openFd f = some fd) (h1 : fd ≠ 1) (h2 : fd ≠ 2) :
    ∃ rest, (ExecuteCommand os sh command).events =
        [Event.openFile f [OpenFlag.O_WRONLY, OpenFlag.O_CREAT, OpenFlag.O_TRUNC] 0o644,
          Event.dup2 fd 1, Event.close fd] ++ rest ∧
      (∀ e ∈ rest, e = Event.errorMessage ∨ ∃ p a, e = Event.execv p a) ∧
      ∀ t : FdTable,
        fdAfter os t (ExecuteCommand os sh command).events 1 = some f ∧
        fdAfter os t (ExecuteCommand os sh command).events 2 = t 2 := by
  have hwf := ExecuteCommand_wellformed os sh command w0 ws (some f) hcmd hw
    (fun e => hf (Option.some.inj e))
  simp only [redirected, hopen] at hwf
  have hev := resolveAndExec_events os sh ((w0 :: ws).map some ++ [none])
  refine ⟨(resolveAndExec os sh ((w0 :: ws).map some ++ [none])).events, ?_, hev, ?_⟩
  · rw [hwf]; rfl
  · intro t
    rw [hwf]
    simp only
    rw [fdAfter_append, fdAfter_inert _ _ _ hev]
    have h12 : (1 : Nat) ≠ fd := fun e => h1 e.symm
    have h22 : (2 : Nat) ≠ fd := fun e => h2 e.symm
    simp [fdAfter, fdStep, openCall, hopen, Function.update, h12, h22]

/-- Witness of C3 (amended): `ls > out`, where `open` returns descriptor 3. -/
theorem ExecuteCommand_redirects_stdout_witness :
    ∃ rest, (ExecuteCommand sampleOS initializeSearchPaths "ls > out".toList).events =
        [Event.openFile "out".toList
            [OpenFlag.O_WRONLY, OpenFlag.O_CREAT, OpenFlag.O_TRUNC] 0o644,
          Event.dup2 3 1, Event.close 3] ++ rest ∧
      (∀ e ∈ rest, e = Event.errorMessage ∨ ∃ p a, e = Event.execv p a) ∧
      ∀ t : FdTable,
        fdAfter sampleOS t
          (ExecuteCommand sampleOS initializeSearchPaths "ls > out".toList).events 1 =
            some "out".toList ∧
        fdAfter sampleOS t
          (ExecuteCommand sampleOS initializeSearchPaths "ls > out".toList).events 2 = t 2 :=
  ExecuteCommand_redirects_stdout sampleOS initializeSearchPaths "ls > out".toList
    "ls".toList [] "out".toList 3 (by decide) (by decide) (by decide) rfl (by decide) (by decide)

/-! ## More on trimWhitespace -/

theorem trimSpec_eq (s : CStr) :
    trimSpec s = ((s.map untab).dropWhile isspace).rdropWhile isspace := rfl

theorem isspace_untab (c : Char) : isspace (untab c) = isspace c := by
  unfold untab
  split
  · rename_i h; subst h; decide
  · rfl

theorem untab_untab (c : Char) : untab (untab c) = untab c := by
  by_cases h : c = '\t'
  · subst h; decide
  · simp [untab, h]

theorem rdropWhile_append_of_pos (p : Char → Bool) (ys ws : CStr) (h : ∀ c ∈ ws, p c = true) :
    (ys ++ ws).rdropWhile p = ys.rdropWhile p := by
  induction ws using List.reverseRecOn with
  | nil => simp
  | append_singleton w c ih =>
    rw [← List.append_assoc, List.rdropWhile_concat_pos _ _ _ (h c (by simp))]
    exact ih (fun d hd => h d (by simp [hd]))

theorem rdropWhile_append_of_ne_nil (p : Char → Bool) (xs ys : CStr)
    (h : ys.rdropWhile p ≠ []) : (xs ++ ys).rdropWhile p = xs ++ ys.rdropWhile p := by
  induction ys using List.reverseRecOn with
  | nil => simp at h
  | append_singleton y c ih =>
    by_cases hc : p c = true
    · rw [List.rdropWhile_concat_pos _ _ _ hc] at h ⊢
      rw [← List.append_assoc, List.rdropWhile_concat_pos _ _ _ hc]
      exact ih h
    · rw [List.rdropWhile_concat_neg _ _ _ hc, ← List.append_assoc,
        List.rdropWhile_concat_neg _ _ _ hc]

theorem trim_append_spaces (p : Char → Bool) (xs ws : CStr) (h : ∀ c ∈ ws, p c = true) :
    ((xs ++ ws).dropWhile p).rdropWhile p = (xs.dropWhile p).rdropWhile p := by
  rw [List.dropWhile_append]
  split
  · rename_i he
    have h1 : ws.dropWhile p = [] := List.dropWhile_eq_nil_iff.2 h
    have h2 : xs.dropWhile p = [] := by simpa using he
    rw [h1, h2]
  · exact rdropWhile_append_of_pos p _ ws h

theorem trimSpec_append_spaces (x ws : CStr) (h : ∀ c ∈ ws, isspace c = true) :
    trimSpec (x ++ ws) = trimSpec x := by
  rw [trimSpec_eq, trimSpec_eq, List.map_append]
  apply trim_append_spaces
  intro c hc
  obtain ⟨d, hd, rfl⟩ := List.mem_map.1 hc
  rw [isspace_untab]
  exact h d hd

theorem trimSpec_spaces_append (ws x : CStr) (h : ∀ c ∈ ws, isspace c = true) :
    trimSpec (ws ++ x) = trimSpec x := by
  rw [trimSpec_eq, trimSpec_eq, List.map_append, List.dropWhile_append_of_pos]
  intro c hc
  obtain ⟨d, hd, rfl⟩ := List.mem_map.1 hc
  rw [isspace_untab]
  exact h d hd

theorem trimSpec_untab (x : CStr) : trimSpec (x.map untab) = trimSpec x := by
  rw [trimSpec_eq, trimSpec_eq, List.map_map]
  congr 3
  funext c
  exact untab_untab c

theorem trimSpec_nil : trimSpec [] = [] := rfl

theorem map_untab_of_not_mem (s : CStr) (htab : '\t' ∉ s) : s.map untab = s := by
  conv_rhs => rw [← List.map_id s]
  apply List.map_congr_left
  intro c hc
  have : c ≠ '\t' := fun e => htab (e ▸ hc)
  simp [untab, this]

theorem trimSpec_of_isspace (p : CStr) (h : ∀ c ∈ p, isspace c = true) : trimSpec p = [] := by
  have := trimSpec_spaces_append p [] h
  rw [List.append_nil] at this
  rw [this, trimSpec_nil]

theorem take_skipSpaces (m : Mem) : m.take (skipSpaces m) = (cstr m).takeWhile isspace := by
  induction m with
  | nil => rfl
  | cons c cs ih =>
    by_cases hs : isspace c = true
    · have hc : c ≠ NUL := by
        intro e; rw [e, isspace_NUL] at hs; exact Bool.false_ne_true hs
      simp [skipSpaces, hs, cstr, hc, ih, List.takeWhile]
    · by_cases hc : c = NUL
      · simp [skipSpaces, cstr, hc, isspace_NUL]
      · simp [skipSpaces, hs, cstr, hc, List.takeWhile]

theorem cstr_append_of_not_mem (a : CStr) (m : Mem) (h : NUL ∉ a) :
    cstr (a ++ m) = a ++ cstr m := by
  induction a with
  | nil => rfl
  | cons c cs ih =>
    simp only [List.mem_cons, not_or] at h
    have hc : c ≠ NUL := fun e => h.1 e.symm
    simp [cstr, hc, ih h.2]

theorem trimWhitespace_fst (m : Mem) :
    (trimWhitespace m).1 = ((cstr m).map untab).takeWhile isspace := by
  have h := take_skipSpaces (normalizeTabs m)
  rw [cstr_normalizeTabs] at h
  unfold trimWhitespace
  simp only
  split <;> exact h

/-- The string at the original pointer once `trimWhitespace` has worked in
place, when something is left of it: tabs are spaces and the trailing white
space is cut, the leading white space is still there. -/
theorem cstr_trimWhitespace_inplace (m : Mem) (h : trimSpec (cstr m) ≠ []) :
    cstr ((trimWhitespace m).1 ++ (trimWhitespace m).2) =
      ((cstr m).map untab).rdropWhile isspace := by
  have hnn : NUL ∉ (trimWhitespace m).1 := by
    rw [trimWhitespace_fst]
    intro hmem
    have := List.mem_takeWhile_imp hmem
    rw [isspace_NUL] at this
    exact Bool.false_ne_true this
  rw [cstr_append_of_not_mem _ _ hnn, cstr_trimWhitespace, trimWhitespace_fst, trimSpec_eq,
    ← rdropWhile_append_of_ne_nil isspace _ _ (by rw [← trimSpec_eq]; exact h),
    List.takeWhile_append_dropWhile]

/-! ## The strsep loop, continued -/

theorem tokensFrom_word (cur w s : CStr) (hw : ' ' ∉ w) :
    tokensFrom cur (w ++ s) = tokensFrom (cur ++ w) s := by
  induction w generalizing cur with
  | nil => simp
  | cons c cs ih =>
    simp only [List.mem_cons, not_or] at hw
    have hc : c ≠ ' ' := fun e => hw.1 e.symm
    have := ih (cur ++ [c]) hw.2
    simp only [List.append_assoc, List.singleton_append] at this
    simp [tokensFrom_cons _ _ _ hc, this]

theorem space_not_mem_word {d : CStr} (h : IsWord d) : ' ' ∉ d := by
  intro hmem
  have := (h.2 _ hmem).1
  exact absurd this (by decide)

theorem strsepAll_cur (d : Char) (cur s : CStr) :
    ∃ p ps, strsepAll d [] s = p :: ps ∧ strsepAll d cur s = (cur ++ p) :: ps := by
  induction s generalizing cur with
  | nil => exact ⟨[], [], rfl, by simp [strsepAll]⟩
  | cons c cs ih =>
    by_cases hc : c = d
    · exact ⟨[], strsepAll d [] cs, by simp [strsepAll, hc], by simp [strsepAll, hc]⟩
    · obtain ⟨p, ps, h1, h2⟩ := ih [c]
      obtain ⟨p2, ps2, h3, h4⟩ := ih (cur ++ [c])
      rw [h1] at h3
      obtain ⟨rfl, rfl⟩ := List.cons.inj h3
      refine ⟨[c] ++ p, ps, by simp [strsepAll, hc, h2], ?_⟩
      simp [strsepAll, hc, h4]

theorem strsepAll_word (d : Char) (cur w s : CStr) (hw : d ∉ w) :
    strsepAll d cur (w ++ s) = strsepAll d (cur ++ w) s := by
  induction w generalizing cur with
  | nil => simp
  | cons c cs ih =>
    simp only [List.mem_cons, not_or] at hw
    have hc : c ≠ d := fun e => hw.1 e.symm
    have := ih (cur ++ [c]) hw.2
    simp only [List.append_assoc, List.singleton_append] at this
    simp [strsepAll, hc, this]

theorem strsepAll_append_word (d : Char) (cur s w : CStr) (hw : d ∉ w) :
    ∃ ps p, strsepAll d cur s = ps ++ [p] ∧ strsepAll d cur (s ++ w) = ps ++ [p ++ w] := by
  induction s generalizing cur with
  | nil =>
    refine ⟨[], cur, rfl, ?_⟩
    have := strsepAll_word d cur w [] hw
    simp only [List.append_nil] at this
    simp [this, strsepAll]
  | cons c cs ih =>
    by_cases hc : c = d
    · obtain ⟨ps, p, h1, h2⟩ := ih []
      exact ⟨cur :: ps, p, by simp [strsepAll, hc, h1], by simp [strsepAll, hc, h2]⟩
    · obtain ⟨ps, p, h1, h2⟩ := ih (cur ++ [c])
      exact ⟨ps, p, by simp [strsepAll, hc, h1], by simp [strsepAll, hc, h2]⟩

theorem strsepAll_map_untab (cur s : CStr) :
    strsepAll '&' (cur.map untab) (s.map untab) = (strsepAll '&' cur s).map (List.map untab) := by
  induction s generalizing cur with
  | nil => rfl
  | cons c cs ih =>
    have hiff : untab c = '&' ↔ c = '&' := by
      unfold untab
      split
      · rename_i h; subst h; decide
      · rfl
    by_cases hc : c = '&'
    · subst hc
      have := ih []
      simp only [List.map_nil] at this
      simp [strsepAll, untab, this]
    · have hc2 : untab c ≠ '&' := fun e => hc (hiff.1 e)
      have := ih (cur ++ [c])
      simp only [List.map_append, List.map_cons, List.map_nil] at this
      simp [strsepAll, hc, hc2, this]

theorem amp_not_mem_of_isspace (ws : CStr) (h : ∀ c ∈ ws, isspace c = true) : '&' ∉ ws := by
  intro hmem
  exact absurd (h _ hmem) (by decide)

/-- Trimming the line before it is cut at `&` changes no trimmed piece. -/
theorem map_trimSpec_strsepAll (s : CStr) :
    (strsepAll '&' [] (trimSpec s)).map trimSpec = (strsepAll '&' [] s).map trimSpec := by
  have hm : (strsepAll '&' [] s).map trimSpec = (strsepAll '&' [] (s.map untab)).map trimSpec := by
    have := strsepAll_map_untab [] s
    simp only [List.map_nil] at this
    rw [this, List.map_map]
    apply List.map_congr_left
    intro x _
    exact (trimSpec_untab x).symm
  rw [hm, trimSpec_eq]
  generalize s.map untab = s2
  obtain ⟨w2, h1, h2⟩ := rdropWhile_append_suffix isspace (s2.dropWhile isspace)
  set T := (s2.dropWhile isspace).rdropWhile isspace with hT
  have hw1 : ∀ c ∈ s2.takeWhile isspace, isspace c = true := fun c hc =>
    List.mem_takeWhile_imp hc
  have hs2 : s2 = s2.takeWhile isspace ++ (T ++ w2) := by
    rw [← h1, List.takeWhile_append_dropWhile]
  obtain ⟨p0, ps0, e1, e2⟩ := strsepAll_cur '&' (s2.takeWhile isspace) T
  obtain ⟨ps, p, e3, e4⟩ := strsepAll_append_word '&' (s2.takeWhile isspace) T w2
    (amp_not_mem_of_isspace w2 h2)
  conv_rhs => rw [hs2, strsepAll_word '&' [] _ _ (amp_not_mem_of_isspace _ hw1),
    List.nil_append, e4]
  rw [e1, List.map_append, List.map_singleton, trimSpec_append_spaces p w2 h2,
    ← List.map_singleton, ← List.map_append, ← e3, e2, List.map_cons, List.map_cons,
    trimSpec_spaces_append _ p0 hw1]

/-! ## The loop body of EnterShell -/

theorem cstr_stripNewline (m : Mem) :
    cstr (stripNewline m) = (cstr m).takeWhile (fun c => c != '\n') := by
  induction m with
  | nil => rfl
  | cons c cs ih =>
    by_cases hc : c = NUL
    · simp [stripNewline, cstr, hc]
    · by_cases hn : c = '\n'
      · subst hn
        simp [stripNewline, cstr, hc, List.takeWhile]
      · simp [stripNewline, cstr, hc, hn, ih, List.takeWhile]

theorem stripNewline_line (l : CStr) (rest : Mem) (h0 : NUL ∉ l) (hn : '\n' ∉ l) :
    stripNewline (l ++ '\n' :: rest) = l ++ NUL :: rest := by
  induction l with
  | nil =>
    have : ('\n' : Char) ≠ NUL := by decide
    simp [stripNewline, this]
  | cons c cs ih =>
    simp only [List.mem_cons, not_or] at h0 hn
    have hc : c ≠ NUL := fun e => h0.1 e.symm
    have hc2 : c ≠ '\n' := fun e => hn.1 e.symm
    simp [stripNewline, hc, hc2, ih h0.2 hn.2]

theorem cstr_drop (m : Mem) (n : Nat) (h : n ≤ (cstr m).length) :
    cstr (m.drop n) = (cstr m).drop n := by
  induction n generalizing m with
  | zero => rfl
  | succ n ih =>
    cases m with
    | nil => simp [cstr]
    | cons c cs =>
      by_cases hc : c = NUL
      · simp [cstr, hc] at h
      · simp only [cstr, hc, if_false, List.length_cons, Nat.add_le_add_iff_right] at h
        simp [cstr, hc, ih cs h]

/-- `strncmp(m, lit, strlen(lit)) == 0` says that the string at `m` starts
with `lit`. -/
theorem strncmpEq_iff (m : Mem) (lit : CStr) (h : NUL ∉ lit) :
    strncmpEq m lit lit.length = true ↔ lit <+: cstr m := by
  induction lit generalizing m with
  | nil => simp [strncmpEq]
  | cons l ls ih =>
    simp only [List.mem_cons, not_or] at h
    have hl : l ≠ NUL := fun e => h.1 e.symm
    cases m with
    | nil =>
      have : NUL ≠ l := fun e => hl e.symm
      simp [strncmpEq, rd, cstr, this]
    | cons c cs =>
      by_cases hc : c = l
      · subst hc
        have := ih cs h.2
        simp [strncmpEq, rd, cstr, hl, this]
      · by_cases hc0 : c = NUL
        · simp [strncmpEq, rd, cstr, hc0, h.1]
        · have hc2 : ¬ l = c := fun e => hc e.symm
          simp [strncmpEq, rd, cstr, hc, hc0, hc2]

/-- `pathCommand` in terms of the string its argument points at. -/
theorem pathCommand_eq (m : Mem) :
    pathCommand m =
      if trimSpec (cstr m) = [] then { searchPaths := none, numPaths := 0 }
      else
        { searchPaths := some (strsepTokens (((cstr m).map untab).rdropWhile isspace))
          numPaths := (strsepTokens (((cstr m).map untab).rdropWhile isspace)).length } := by
  unfold pathCommand
  simp only [rd_zero_eq_NUL_iff, cstr_trimWhitespace]
  split
  · rfl
  · rename_i h
    rw [CountArgs, cstr_trimWhitespace_inplace m h]

theorem isWord_path : IsWord "path".toList := by
  refine ⟨by decide, ?_⟩
  decide

theorem strncmpEq_exit (m : Mem) :
    strncmpEq m "exit".toList 4 = true ↔ "exit".toList <+: cstr m :=
  strncmpEq_iff m "exit".toList (by decide)

theorem strncmpEq_cd (m : Mem) :
    strncmpEq m "cd".toList 2 = true ↔ "cd".toList <+: cstr m :=
  strncmpEq_iff m "cd".toList (by decide)

theorem strncmpEq_path (m : Mem) :
    strncmpEq m "path".toList 4 = true ↔ "path".toList <+: cstr m :=
  strncmpEq_iff m "path".toList (by decide)

/-- Line 68 leaves the pointer at the start of the block exactly when the
line does not begin with white space. -/
theorem advance_trimWhitespace (m : Mem) :
    advance (trimWhitespace m).1 =
      if isspace (rd m 0) then BufferPtr.interior else BufferPtr.block := by
  rw [trimWhitespace_fst]
  cases m with
  | nil => simp [advance, cstr, rd, isspace_NUL]
  | cons c cs =>
    by_cases hc : c = NUL
    · subst hc
      simp [cstr, rd, advance, isspace_NUL]
    · by_cases hs : isspace c = true <;> simp [cstr, rd, advance, hc, isspace_untab, hs]

theorem rd_stripNewline (m : Mem) (h : rd m 0 ≠ '\n') : rd (stripNewline m) 0 = rd m 0 := by
  cases m with
  | nil => rfl
  | cons c cs =>
    simp only [rd, List.getD_cons_zero] at h
    by_cases hc : c = NUL
    · simp [stripNewline, hc]
    · simp [stripNewline, hc, h, rd]

/-- A line that does not begin with white space leaves the pointer at the
start of the block. -/
theorem advance_of_not_isspace (m : Mem) (h : isspace (rd m 0) = false) :
    advance (trimWhitespace (stripNewline m)).1 = BufferPtr.block := by
  have hn : rd m 0 ≠ '\n' := by
    intro e
    rw [e] at h
    exact absurd h (by decide)
  rw [advance_trimWhitespace, rd_stripNewline m hn, h]
  rfl

/-- A line that begins with white space other than the newline leaves the
pointer inside the block. -/
theorem advance_of_isspace (m : Mem) (h : isspace (rd m 0) = true) (hn : rd m 0 ≠ '\n') :
    advance (trimWhitespace (stripNewline m)).1 = BufferPtr.interior := by
  rw [advance_trimWhitespace, rd_stripNewline m hn, h]
  rfl

/-- A line that starts with the four characters `path` goes to `pathCommand`,
which is handed the pointer `buffer + 5`. -/
theorem EnterShellBody_path (os : OS) (sh : Shell) (buffer0 : Mem)
    (h : "path".toList <+: cstr (trimWhitespace (stripNewline buffer0)).2) :
    EnterShellBody os sh buffer0 =
      ⟨⟨pathCommand ((trimWhitespace (stripNewline buffer0)).2.drop 5), [], none⟩,
        advance (trimWhitespace (stripNewline buffer0)).1⟩ := by
  unfold EnterShellBody
  dsimp only
  generalize (trimWhitespace (stripNewline buffer0)).2 = B at h ⊢
  obtain ⟨t, ht⟩ := h
  have hexit : strncmpEq B "exit".toList 4 = false := by
    rw [Bool.eq_false_iff, ne_eq, strncmpEq_exit, ← ht]
    simp
  have hcd : strncmpEq B "cd".toList 2 = false := by
    rw [Bool.eq_false_iff, ne_eq, strncmpEq_cd, ← ht]
    simp
  have hpath : strncmpEq B "path".toList 4 = true := by
    rw [strncmpEq_path, ← ht]
    exact List.prefix_append _ _
  have hclean : (cleanedBuffer B).head? ≠ some '>' := by
    rw [cleanedBuffer, ← ht]
    simp [List.filter]
  simp only [hclean, hexit, hcd, hpath, if_true, if_false, Bool.false_eq_true]

theorem normalizeTabs_append_NUL (s : CStr) (rest : Mem) (h : NUL ∉ s) :
    normalizeTabs (s ++ NUL :: rest) = s.map untab ++ NUL :: rest := by
  induction s with
  | nil => simp [normalizeTabs]
  | cons c cs ih =>
    simp only [List.mem_cons, not_or] at h
    have hc : c ≠ NUL := fun e => h.1 e.symm
    simp [normalizeTabs, hc, ih h.2, untab]

theorem skipSpaces_append (ws : CStr) (m : Mem) (hws : ∀ c ∈ ws, isspace c = true)
    (hm : isspace (rd m 0) = false) : skipSpaces (ws ++ m) = ws.length := by
  induction ws with
  | nil =>
    cases m with
    | nil => rfl
    | cons c cs =>
      simp only [rd, List.getD_cons_zero] at hm
      simp [skipSpaces, hm]
  | cons w ws ih =>
    simp [skipSpaces, hws w (List.mem_cons_self _ _),
      ih (fun c hc => hws c (List.mem_cons_of_mem _ hc))]

theorem strlen_append_NUL (s : CStr) (rest : Mem) (h : NUL ∉ s) :
    strlen (s ++ NUL :: rest) = s.length := by
  rw [strlen_eq, cstr_append_NUL s h]

theorem rd_append_left (a : CStr) (m : Mem) (i : Nat) (h : i < a.length) :
    rd (a ++ m) i = a.get ⟨i, h⟩ := by
  simp [rd, List.getElem?_append_left h, List.getElem?_eq_getElem h]

theorem rd_append_right (a : CStr) (m : Mem) (i : Nat) : rd (a ++ m) (a.length + i) = rd m i := by
  simp [rd, List.getElem?_append_right]

/-- The backward loop stops at the last character of `x` when only white
space follows it. -/
theorem backLoop_trail (x trail : CStr) (rest : Mem) (hx : x ≠ [])
    (hlast : ∀ c, x.getLast? = some c → isspace c = false)
    (htrail : ∀ c ∈ trail, isspace c = true) (j : Nat) (hj : j ≤ trail.length) :
    backLoop (x ++ (trail ++ rest)) (x.length - 1 + j) = x.length - 1 := by
  have hpos : 0 < x.length := List.length_pos.2 hx
  induction j with
  | zero =>
    rw [Nat.add_zero]
    cases hxl : x.length - 1 with
    | zero => rfl
    | succ e =>
      have hlt : e + 1 < x.length := by omega
      have hc := hlast (x.get ⟨e + 1, hlt⟩) (by
        rw [List.getLast?_eq_getElem?, hxl]
        simp [List.getElem?_eq_getElem hlt])
      rw [backLoop, rd_append_left x _ (e + 1) hlt, hc]
      rfl
  | succ j ih =>
    have hidx : x.length - 1 + (j + 1) = (x.length + j - 1) + 1 := by omega
    have hjl : j < trail.length := by omega
    have hr : rd (x ++ (trail ++ rest)) (x.length + j - 1 + 1) = trail.get ⟨j, hjl⟩ := by
      rw [show x.length + j - 1 + 1 = x.length + j by omega, rd_append_right,
        rd_append_left trail rest j hjl]
    rw [hidx, backLoop, hr, htrail _ (List.get_mem _ _ _), if_pos rfl,
      show x.length + j - 1 = x.length - 1 + j by omega]
    exact ih (by omega)

theorem set_length_append (x : CStr) (m : Mem) (c : Char) :
    (x ++ m).set x.length c = x ++ m.set 0 c := by
  induction x with
  | nil => rfl
  | cons a as ih => simp [ih]

/-- The memory `trimWhitespace` leaves: the trimmed string, its terminator over
the first trailing white-space byte, and behind it what was there before. -/
theorem trimWhitespace_mem (lead x trail : CStr) (rest : Mem)
    (hlead : ∀ c ∈ lead, isspace c = true) (htrail : ∀ c ∈ trail, isspace c = true)
    (hx : x ≠ []) (hx0 : NUL ∉ x)
    (hhead : ∀ c, x.head? = some c → isspace c = false)
    (hlast : ∀ c, x.getLast? = some c → isspace c = false) :
    (trimWhitespace (lead ++ x ++ trail ++ NUL :: rest)).2 =
      x.map untab ++ NUL :: (trail.map untab ++ NUL :: rest).tail := by
  have hn : NUL ∉ lead ++ x ++ trail := by
    intro h
    rcases List.mem_append.1 h with h | h
    · rcases List.mem_append.1 h with h | h
      · have := hlead _ h; rw [isspace_NUL] at this; exact Bool.false_ne_true this
      · exact hx0 h
    · have := htrail _ h; rw [isspace_NUL] at this; exact Bool.false_ne_true this
  have hlead2 : ∀ c ∈ lead.map untab, isspace c = true := by
    intro c hc
    obtain ⟨d, hd, rfl⟩ := List.mem_map.1 hc
    rw [isspace_untab]; exact hlead d hd
  have htrail2 : ∀ c ∈ trail.map untab, isspace c = true := by
    intro c hc
    obtain ⟨d, hd, rfl⟩ := List.mem_map.1 hc
    rw [isspace_untab]; exact htrail d hd
  have hx2 : x.map untab ≠ [] := by simpa using hx
  have hx02 : NUL ∉ x.map untab := by
    intro h
    obtain ⟨d, hd, he⟩ := List.mem_map.1 h
    have hd0 : d ≠ NUL := fun e => hx0 (e ▸ hd)
    unfold untab at he
    split at he
    · exact absurd he (by decide)
    · exact hd0 he
  have hhead2 : isspace (rd (x.map untab ++ (trail.map untab ++ NUL :: rest)) 0) = false := by
    cases x with
    | nil => exact absurd rfl hx
    | cons a as =>
      simp only [List.map_cons, List.cons_append, rd, List.getD_cons_zero]
      rw [isspace_untab]
      exact hhead a rfl
  have hlast2 : ∀ c, (x.map untab).getLast? = some c → isspace c = false := by
    intro c hc
    rw [List.getLast?_map] at hc
    cases hl : x.getLast? with
    | none => rw [hl] at hc; simp at hc
    | some d =>
      rw [hl] at hc
      simp only [Option.map_some', Option.some.injEq] at hc
      rw [← hc, isspace_untab]
      exact hlast d hl
  have hnorm : normalizeTabs (lead ++ x ++ trail ++ NUL :: rest) =
      lead.map untab ++ (x.map untab ++ (trail.map untab ++ NUL :: rest)) := by
    rw [normalizeTabs_append_NUL _ _ hn]
    simp
  have hskip : skipSpaces (lead.map untab ++ (x.map untab ++ (trail.map untab ++ NUL :: rest))) =
      (lead.map untab).length := skipSpaces_append _ _ hlead2 hhead2
  unfold trimWhitespace
  simp only [hnorm, hskip, List.drop_left]
  have hne : rd (x.map untab ++ (trail.map untab ++ NUL :: rest)) 0 ≠ NUL := by
    intro e
    rw [e, isspace_NUL] at hhead2
    have hmem : NUL ∈ x.map untab := by
      cases hxm : x.map untab with
      | nil => exact absurd hxm hx2
      | cons a as =>
        rw [hxm] at e
        simp only [List.cons_append, rd, List.getD_cons_zero] at e
        rw [e]; exact List.mem_cons_self _ _
    exact hx02 hmem
  rw [if_neg hne]
  have hlen : strlen (x.map untab ++ (trail.map untab ++ NUL :: rest)) =
      (x.map untab).length + (trail.map untab).length := by
    have h2 : NUL ∉ x.map untab ++ trail.map untab := by
      intro h
      rcases List.mem_append.1 h with h | h
      · exact hx02 h
      · have := htrail2 _ h; rw [isspace_NUL] at this; exact Bool.false_ne_true this
    have := strlen_append_NUL (x.map untab ++ trail.map untab) rest h2
    simpa using this
  have hpos : 0 < (x.map untab).length := List.length_pos.2 hx2
  have hback := backLoop_trail (x.map untab) (trail.map untab) (NUL :: rest) hx2 hlast2 htrail2
    (trail.map untab).length (le_refl _)
  simp only [hlen]
  rw [show (x.map untab).length + (trail.map untab).length - 1 =
    (x.map untab).length - 1 + (trail.map untab).length by omega, hback,
    show (x.map untab).length - 1 + 1 = (x.map untab).length by omega, set_length_append]
  congr 1
  cases trail with
  | nil => rfl
  | cons t ts => rfl

theorem isspace_of_blank {c : Char} (h : blank c = true) : isspace c = true := by
  unfold blank at h
  unfold isspace
  simp only [Bool.or_eq_true, decide_eq_true_eq] at h ⊢
  rcases h with h | h
  · exact Or.inl (Or.inl (Or.inl (Or.inl (Or.inl h))))
  · exact Or.inl (Or.inl (Or.inl (Or.inl (Or.inr h))))

theorem untab_of_blank {c : Char} (h : blank c = true) : untab c = ' ' := by
  unfold blank at h
  simp only [Bool.or_eq_true, decide_eq_true_eq] at h
  rcases h with h | h <;> subst h <;> rfl

theorem map_untab_word {d : CStr} (h : IsWord d) : d.map untab = d := by
  apply map_untab_of_not_mem
  intro hm
  exact absurd (h.2 _ hm).1 (by decide)

theorem tokensFrom_spaces (sp s : CStr) (hsp : ∀ c ∈ sp, c = ' ') :
    tokensFrom [] (sp ++ s) = tokensFrom [] s := by
  induction sp with
  | nil => rfl
  | cons c cs ih =>
    have hc := hsp c (List.mem_cons_self _ _)
    subst hc
    have := ih (fun d hd => hsp d (List.mem_cons_of_mem _ hd))
    simp [tokensFrom_space, flush, this]

theorem tokensFrom_gap (cur sp s : CStr) (hsp : ∀ c ∈ sp, c = ' ') (hne : sp ≠ []) :
    tokensFrom cur (sp ++ s) = flush cur ++ tokensFrom [] s := by
  cases sp with
  | nil => exact absurd rfl hne
  | cons c cs =>
    have hc := hsp c (List.mem_cons_self _ _)
    subst hc
    rw [List.cons_append, tokensFrom_space,
      tokensFrom_spaces cs s (fun d hd => hsp d (List.mem_cons_of_mem _ hd))]

theorem gap_untab (g : CStr) (h : ∀ c ∈ g, blank c = true) : ∀ c ∈ g.map untab, c = ' ' := by
  intro c hc
  obtain ⟨d, hd, rfl⟩ := List.mem_map.1 hc
  exact untab_of_blank (h d hd)

/-- The strsep loop reads the words of a gapped list back. -/
theorem tokensFrom_gapped (cur : CStr) (items : List (CStr × CStr))
    (h : ∀ it ∈ items, IsItem it) :
    tokensFrom cur ((gapped items).map untab) = flush cur ++ items.map Prod.snd := by
  induction items generalizing cur with
  | nil => simp [gapped, tokensFrom_nil]
  | cons it its ih =>
    obtain ⟨h1, h2, h3⟩ := h it (List.mem_cons_self _ _)
    rw [gapped, List.map_append, List.map_append, List.append_assoc,
      tokensFrom_gap cur _ _ (gap_untab _ h2) (by simpa using h1), map_untab_word h3,
      tokensFrom_word [] it.2 _ (space_not_mem_word h3), List.nil_append,
      ih it.2 (fun e he => h e (List.mem_cons_of_mem _ he)), flush_of_ne_nil h3.1]
    simp

theorem mem_gapped (c : Char) (items : List (CStr × CStr)) (h : c ∈ gapped items) :
    ∃ it ∈ items, c ∈ it.1 ∨ c ∈ it.2 := by
  induction items with
  | nil => simp [gapped] at h
  | cons it its ih =>
    simp only [gapped, List.mem_append] at h
    rcases h with (h | h) | h
    · exact ⟨it, List.mem_cons_self _ _, Or.inl h⟩
    · exact ⟨it, List.mem_cons_self _ _, Or.inr h⟩
    · obtain ⟨e, he, hc⟩ := ih h
      exact ⟨e, List.mem_cons_of_mem _ he, hc⟩

theorem getLast_gapped (x : CStr) (items : List (CStr × CStr)) (hx : IsWord x)
    (h : ∀ it ∈ items, IsItem it) :
    ∀ c, (x ++ gapped items).getLast? = some c → isspace c = false := by
  induction items generalizing x with
  | nil =>
    intro c hc
    simp only [gapped, List.append_nil] at hc
    exact (hx.2 c (List.mem_of_mem_getLast? hc)).1
  | cons it its ih =>
    intro c hc
    obtain ⟨_, _, h3⟩ := h it (List.mem_cons_self _ _)
    have hrw : x ++ gapped (it :: its) = (x ++ it.1) ++ (it.2 ++ gapped its) := by
      simp [gapped]
    rw [hrw, List.getLast?_append] at hc
    cases hl : (it.2 ++ gapped its).getLast? with
    | none =>
      rw [List.getLast?_eq_none_iff] at hl
      exact absurd (List.append_eq_nil.1 hl).1 h3.1
    | some y =>
      rw [hl] at hc
      simp only [Option.or_some, Option.some.injEq] at hc
      subst hc
      exact ih it.2 h3 (fun e he => h e (List.mem_cons_of_mem _ he)) _ hl

/-- A word followed by gapped words: a trimmed string without NUL or newline. -/
theorem word_gapped_props (x : CStr) (items : List (CStr × CStr)) (hx : IsWord x)
    (h : ∀ it ∈ items, IsItem it) :
    x ++ gapped items ≠ [] ∧ NUL ∉ x ++ gapped items ∧ '\n' ∉ x ++ gapped items ∧
    (∀ c, (x ++ gapped items).head? = some c → isspace c = false) ∧
    (∀ c, (x ++ gapped items).getLast? = some c → isspace c = false) := by
  have hmem : ∀ c ∈ x ++ gapped items, blank c = true ∨ (isspace c = false ∧ c ≠ NUL) := by
    intro c hc
    rcases List.mem_append.1 hc with hc | hc
    · exact Or.inr (hx.2 c hc)
    · obtain ⟨it, hit, hc⟩ := mem_gapped c items hc
      rcases hc with hc | hc
      · exact Or.inl ((h it hit).2.1 c hc)
      · exact Or.inr ((h it hit).2.2.2 c hc)
  refine ⟨fun e => hx.1 (List.append_eq_nil.1 e).1, fun hm => ?_, fun hm => ?_, ?_,
    getLast_gapped x items hx h⟩
  · rcases hmem _ hm with e | e
    · exact absurd e (by decide)
    · exact e.2 rfl
  · rcases hmem _ hm with e | e
    · exact absurd e (by decide)
    · exact absurd e.1 (by decide)
  · intro c hc
    cases x with
    | nil => exact absurd rfl hx.1
    | cons a as =>
      simp only [List.cons_append, List.head?_cons, Option.some.injEq] at hc
      subst hc
      exact (hx.2 a (List.mem_cons_self _ _)).1

theorem trimSpec_ne_nil (s : CStr) (c : Char) (hc : c ∈ s) (hs : isspace c = false) :
    trimSpec s ≠ [] := by
  intro h
  rw [trimSpec_eq, List.rdropWhile_eq_nil_iff] at h
  have hnil : (s.map untab).dropWhile isspace = [] := by
    by_contra hne
    have h1 := List.head_dropWhile_not isspace (s.map untab) hne
    rw [h _ (List.head_mem hne)] at h1
    exact Bool.noConfusion h1
  have hall : ∀ x ∈ s.map untab, isspace x = true := List.dropWhile_eq_nil_iff.1 hnil
  have := hall (untab c) (List.mem_map_of_mem _ hc)
  rw [isspace_untab, hs] at this
  exact Bool.false_ne_true this

theorem cstr_tail_trail (ws : CStr) (rest : Mem) (hws : ∀ c ∈ ws, isspace c = true)
    (hrest : rd rest 0 = NUL) : trimSpec (cstr (ws ++ NUL :: rest).tail) = [] := by
  apply trimSpec_of_isspace
  cases ws with
  | nil =>
    have : cstr rest = [] := (rd_zero_eq_NUL_iff _).1 hrest
    simp [this]
  | cons w ws2 =>
    have hn : NUL ∉ ws2 := by
      intro h
      have := hws _ (List.mem_cons_of_mem _ h)
      rw [isspace_NUL] at this
      exact Bool.false_ne_true this
    simp only [List.cons_append, List.tail_cons]
    rw [cstr_append_NUL _ hn]
    exact fun c hc => hws c (List.mem_cons_of_mem _ hc)

/-- What the loop body does with a line `path d1 ... dk`, whatever white space
stands in front of it, between its words and behind it. -/
theorem EnterShellBody_path_gapped (os : OS) (sh : Shell) (items : List (CStr × CStr))
    (lead trail : CStr) (rest : Mem) (hitems : ∀ it ∈ items, IsItem it)
    (hlead : ∀ c ∈ lead, blank c = true) (htrail : ∀ c ∈ trail, blank c = true)
    (hrest : rd rest 0 = NUL) :
    EnterShellBody os sh (lead ++ "path".toList ++ gapped items ++ trail ++ '\n' :: rest) =
      ⟨⟨if items = [] then { searchPaths := none, numPaths := 0 }
        else { searchPaths := some (items.map Prod.snd), numPaths := items.length }, [], none⟩,
        advance lead⟩ := by
  obtain ⟨hXne, hX0, hXn, hXh, hXl⟩ := word_gapped_props "path".toList items isWord_path hitems
  have hblank : ∀ ws : CStr, (∀ c ∈ ws, blank c = true) → NUL ∉ ws ∧ '\n' ∉ ws := by
    intro ws h
    exact ⟨fun hm => absurd (h _ hm) (by decide), fun hm => absurd (h _ hm) (by decide)⟩
  have hL0 : NUL ∉ lead ++ ("path".toList ++ gapped items) ++ trail := by
    intro h
    rcases List.mem_append.1 h with h | h
    · rcases List.mem_append.1 h with h | h
      · exact (hblank lead hlead).1 h
      · exact hX0 h
    · exact (hblank trail htrail).1 h
  have hLn : '\n' ∉ lead ++ ("path".toList ++ gapped items) ++ trail := by
    intro h
    rcases List.mem_append.1 h with h | h
    · rcases List.mem_append.1 h with h | h
      · exact (hblank lead hlead).2 h
      · exact hXn h
    · exact (hblank trail htrail).2 h
  have hbuf0 : lead ++ "path".toList ++ gapped items ++ trail ++ '\n' :: rest =
      (lead ++ ("path".toList ++ gapped items) ++ trail) ++ '\n' :: rest := by
    simp only [List.append_assoc]
  have hB : (trimWhitespace (stripNewline
      (lead ++ "path".toList ++ gapped items ++ trail ++ '\n' :: rest))).2 =
      "path".toList ++ ((gapped items).map untab ++
        NUL :: (trail.map untab ++ NUL :: rest).tail) := by
    rw [hbuf0, stripNewline_line _ _ hL0 hLn,
      trimWhitespace_mem lead ("path".toList ++ gapped items) trail rest
        (fun c hc => isspace_of_blank (hlead c hc)) (fun c hc => isspace_of_blank (htrail c hc))
        hXne hX0 hXh hXl, List.map_append, map_untab_word isWord_path, List.append_assoc]
  have hG0 : NUL ∉ (gapped items).map untab := by
    intro hm
    obtain ⟨d, hd, he⟩ := List.mem_map.1 hm
    have hd0 : d ≠ NUL := fun e => hX0 (by rw [← e]; exact List.mem_append_right _ hd)
    unfold untab at he
    split at he
    · exact absurd he (by decide)
    · exact hd0 he
  have hcB : cstr (trimWhitespace (stripNewline
      (lead ++ "path".toList ++ gapped items ++ trail ++ '\n' :: rest))).2 =
      "path".toList ++ (gapped items).map untab := by
    rw [hB, ← List.append_assoc, cstr_append_NUL]
    simp only [List.mem_append, not_or]
    exact ⟨by decide, hG0⟩
  rw [EnterShellBody_path os sh _ (by rw [hcB]; exact List.prefix_append _ _)]
  have hshell : pathCommand (List.drop 5 (trimWhitespace (stripNewline
      (lead ++ "path".toList ++ gapped items ++ trail ++ '\n' :: rest))).2) =
      if items = [] then { searchPaths := none, numPaths := 0 }
        else { searchPaths := some (items.map Prod.snd), numPaths := items.length } := by
    cases items with
    | nil =>
      rw [hB, pathCommand_eq]
      have hd : List.drop 5 ("path".toList ++ ((gapped []).map untab ++
          NUL :: (trail.map untab ++ NUL :: rest).tail)) =
          (trail.map untab ++ NUL :: rest).tail := rfl
      rw [hd, cstr_tail_trail _ rest (fun c hc => by
        obtain ⟨d, hd, rfl⟩ := List.mem_map.1 hc
        rw [isspace_untab]; exact isspace_of_blank (htrail d hd)) hrest]
      simp
    | cons it its =>
      obtain ⟨h1, h2, h3⟩ := hitems it (List.mem_cons_self _ _)
      have hits : ∀ e ∈ its, IsItem e := fun e he => hitems e (List.mem_cons_of_mem _ he)
      have hgap : ∃ tl, it.1.map untab = ' ' :: tl ∧ ∀ c ∈ tl, c = ' ' := by
        cases hg : it.1.map untab with
        | nil => simp at hg; exact absurd hg h1
        | cons a tl =>
          have hall := gap_untab _ h2
          rw [hg] at hall
          exact ⟨tl, by rw [hall a (List.mem_cons_self _ _)],
            fun c hc => hall c (List.mem_cons_of_mem _ hc)⟩
      obtain ⟨tl, htl, htl2⟩ := hgap
      have hG : (gapped (it :: its)).map untab = ' ' :: (tl ++ (it.2 ++ (gapped its).map untab)) := by
        rw [gapped, List.map_append, List.map_append, htl, map_untab_word h3]
        simp
      have hdrop : cstr (List.drop 5 (trimWhitespace (stripNewline
          (lead ++ "path".toList ++ gapped (it :: its) ++ trail ++ '\n' :: rest))).2) =
          tl ++ (it.2 ++ (gapped its).map untab) := by
        rw [cstr_drop _ _ (by rw [hcB, hG]; simp), hcB, hG]
        rfl
      obtain ⟨_, _, _, _, hWl⟩ := word_gapped_props it.2 its h3 hits
      have hW : it.2 ++ (gapped its).map untab = (it.2 ++ gapped its).map untab := by
        rw [List.map_append, map_untab_word h3]
      have hYu : (tl ++ (it.2 ++ (gapped its).map untab)).map untab =
          tl ++ (it.2 ++ (gapped its).map untab) := by
        have h5 : tl ++ (it.2 ++ (gapped its).map untab) =
            ((gapped (it :: its)).map untab).drop 1 := by rw [hG]; rfl
        rw [h5, ← List.map_drop, List.map_map]
        apply List.map_congr_left
        intro c _
        exact untab_untab c
      have hYl : (tl ++ (it.2 ++ (gapped its).map untab)).rdropWhile isspace =
          tl ++ (it.2 ++ (gapped its).map untab) := by
        rw [List.rdropWhile_eq_self_iff]
        intro hl
        have hlast := List.getLast?_eq_getLast _ hl
        generalize (tl ++ (it.2 ++ (gapped its).map untab)).getLast hl = z at hlast ⊢
        rw [List.getLast?_append, hW, List.getLast?_map] at hlast
        cases hq : (it.2 ++ gapped its).getLast? with
        | none =>
          rw [List.getLast?_eq_none_iff] at hq
          exact absurd (List.append_eq_nil.1 hq).1 h3.1
        | some y =>
          rw [hq] at hlast
          simp only [Option.map_some', Option.or_some, Option.some.injEq] at hlast
          rw [← hlast, isspace_untab, hWl y hq]
          simp
      have hne : trimSpec (tl ++ (it.2 ++ (gapped its).map untab)) ≠ [] := by
        cases hd : it.2 with
        | nil => exact absurd hd h3.1
        | cons a as =>
          apply trimSpec_ne_nil _ a (by simp)
          exact (h3.2 a (by rw [hd]; exact List.mem_cons_self _ _)).1
      have htok : strsepTokens (tl ++ (it.2 ++ (gapped its).map untab)) =
          it.2 :: its.map Prod.snd := by
        rw [strsepTokens_eq, tokensFrom_spaces tl _ htl2,
          tokensFrom_word [] it.2 _ (space_not_mem_word h3), List.nil_append,
          tokensFrom_gapped it.2 its hits, flush_of_ne_nil h3.1]
        rfl
      rw [pathCommand_eq, hdrop, if_neg hne, hYu, hYl, htok]
      simp
  have hptr : advance (trimWhitespace (stripNewline
      (lead ++ "path".toList ++ gapped items ++ trail ++ '\n' :: rest))).1 = advance lead := by
    rw [hbuf0, stripNewline_line _ _ hL0 hLn, advance_trimWhitespace]
    cases lead with
    | nil => simp [rd, advance, isspace]
    | cons c l =>
      simp [rd, advance, isspace_of_blank (hlead c (List.mem_cons_self _ _))]
  rw [hshell, hptr]

/-! ## The claims about the path table -/

/-- C4: whatever the path table was, after the line `path d1 ... dk` (k ≥ 0;
spaces and tabs may stand in front of `path`, between the words and at the end
of the line) the table is `[d1, ..., dk]`, in that order, and the line has no
other effect; processing the same line once more leaves the same globals. -/
theorem path_replaces_table (os : OS) (sh : Shell) (items : List (CStr × CStr))
    (lead trail : CStr) (rest rest2 : Mem) (hitems : ∀ it ∈ items, IsItem it)
    (hlead : ∀ c ∈ lead, blank c = true) (htrail : ∀ c ∈ trail, blank c = true)
    (hrest : rd rest 0 = NUL) (hrest2 : rd rest2 0 = NUL) :
    (EnterShellBody os sh
      (lead ++ "path".toList ++ gapped items ++ trail ++ '\n' :: rest)).shell.table =
        items.map Prod.snd ∧
    (EnterShellBody os sh
      (lead ++ "path".toList ++ gapped items ++ trail ++ '\n' :: rest)).events = [] ∧
    (EnterShellBody os sh
      (lead ++ "path".toList ++ gapped items ++ trail ++ '\n' :: rest)).status = none ∧
    (EnterShellBody os
        (EnterShellBody os sh
          (lead ++ "path".toList ++ gapped items ++ trail ++ '\n' :: rest)).shell
        (lead ++ "path".toList ++ gapped items ++ trail ++ '\n' :: rest2)).shell =
      (EnterShellBody os sh
        (lead ++ "path".toList ++ gapped items ++ trail ++ '\n' :: rest)).shell := by
  rw [EnterShellBody_path_gapped os _ items lead trail rest2 hitems hlead htrail hrest2,
    EnterShellBody_path_gapped os sh items lead trail rest hitems hlead htrail hrest]
  refine ⟨?_, rfl, rfl, rfl⟩
  cases items with
  | nil => rfl
  | cons it its => simp [Shell.table]

/-- Witness of C4: the line ` path /usr/bin<tab> /bin ` after the default table. -/
theorem path_replaces_table_witness :
    (EnterShellBody sampleOS initializeSearchPaths
      (" ".toList ++ "path".toList ++
        gapped [(" ".toList, "/usr/bin".toList), ("\t ".toList, "/bin".toList)] ++
        " ".toList ++ '\n' :: [])).shell.table =
        [(" ".toList, "/usr/bin".toList), ("\t ".toList, "/bin".toList)].map Prod.snd ∧
    (EnterShellBody sampleOS initializeSearchPaths
      (" ".toList ++ "path".toList ++
        gapped [(" ".toList, "/usr/bin".toList), ("\t ".toList, "/bin".toList)] ++
        " ".toList ++ '\n' :: [])).events = [] ∧
    (EnterShellBody sampleOS initializeSearchPaths
      (" ".toList ++ "path".toList ++
        gapped [(" ".toList, "/usr/bin".toList), ("\t ".toList, "/bin".toList)] ++
        " ".toList ++ '\n' :: [])).status = none ∧
    (EnterShellBody sampleOS
        (EnterShellBody sampleOS initializeSearchPaths
          (" ".toList ++ "path".toList ++
            gapped [(" ".toList, "/usr/bin".toList), ("\t ".toList, "/bin".toList)] ++
            " ".toList ++ '\n' :: [])).shell
        (" ".toList ++ "path".toList ++
          gapped [(" ".toList, "/usr/bin".toList), ("\t ".toList, "/bin".toList)] ++
          " ".toList ++ '\n' :: [])).shell =
      (EnterShellBody sampleOS initializeSearchPaths
        (" ".toList ++ "path".toList ++
          gapped [(" ".toList, "/usr/bin".toList), ("\t ".toList, "/bin".toList)] ++
          " ".toList ++ '\n' :: [])).shell :=
  path_replaces_table sampleOS initializeSearchPaths
    [(" ".toList, "/usr/bin".toList), ("\t ".toList, "/bin".toList)] " ".toList " ".toList
    [] [] (by decide) (by decide) (by decide) (by decide) (by decide)

/-- C5: for a well-formed external command with first word `w0`, when no
directory of the path table gives an executable candidate (in particular when
the table is empty, as it is after the line `path`), `ExecuteCommand` writes
the error message exactly once, calls `execv` not at all, and returns. -/
theorem ExecuteCommand_unresolved (os : OS) (sh : Shell) (command : Mem) (w0 : CStr)
    (ws : List CStr) (target : Option CStr)
    (hcmd : setupCommands command = (w0 :: ws) ++ redirectTokens target)
    (hw : ">".toList ∉ w0 :: ws) (hf : target ≠ some ">".toList)
    (hpath : (∃ sh0 rest, rd rest 0 = NUL ∧
        sh = (EnterShellBody os sh0 ("path\n".toList ++ rest)).shell) ∨
      ((∀ ps, sh.searchPaths = some ps → sh.numPaths = ps.length) ∧
        ∀ d ∈ sh.table, os.access (d ++ "/".toList ++ w0) = false)) :
    (ExecuteCommand os sh command).events.count Event.errorMessage = 1 ∧
    (∀ p a, Event.execv p a ∉ (ExecuteCommand os sh command).events) ∧
    (ExecuteCommand os sh command).outcome = Outcome.returned := by
  have hres : resolveAndExec os sh ((w0 :: ws).map some ++ [none]) =
      ⟨[Event.errorMessage], Outcome.returned⟩ := by
    apply resolveAndExec_none
    rcases hpath with ⟨sh0, rest, hr, hsh⟩ | ⟨hinv, hno⟩
    · left
      have hline := EnterShellBody_path_gapped os sh0 [] [] [] rest (by simp) (by simp)
        (by simp) hr
      have hsame : ([] : CStr) ++ "path".toList ++ gapped [] ++ [] ++ '\n' :: rest =
          "path\n".toList ++ rest := rfl
      rw [hsame] at hline
      rw [hline] at hsh
      rw [hsh]
      simp
    · cases hsp : sh.searchPaths with
      | none => exact Or.inl rfl
      | some ps =>
        right
        refine ⟨ps, rfl, hinv ps hsp, ?_⟩
        have ht : sh.table = ps := by
          simp [Shell.table, hsp, hinv ps hsp]
        rw [ht] at hno
        exact hno
  rw [ExecuteCommand_wellformed os sh command w0 ws target hcmd hw hf, hres]
  cases target with
  | none => simp [redirected]
  | some f =>
    cases ho : os.openFd f with
    | none => simp [redirected, ho, openCall]
    | some fd => simp [redirected, ho, openCall]

/-- Witness of C5: `cat notes > out` with the default table, where `/bin/cat`
is not executable. -/
theorem ExecuteCommand_unresolved_witness :
    (ExecuteCommand sampleOS initializeSearchPaths "cat notes > out".toList).events.count
        Event.errorMessage = 1 ∧
    (∀ p a, Event.execv p a ∉
      (ExecuteCommand sampleOS initializeSearchPaths "cat notes > out".toList).events) ∧
    (ExecuteCommand sampleOS initializeSearchPaths "cat notes > out".toList).outcome =
      Outcome.returned :=
  ExecuteCommand_unresolved sampleOS initializeSearchPaths "cat notes > out".toList
    "cat".toList ["notes".toList] (some "out".toList) (by decide) (by decide) (by decide)
    (Or.inr ⟨by decide, by decide⟩)

/-- C10 fails on the code: the dispatch compares prefixes, not words.  The
line `pathology` replaces the path table by `[logy]`, the lines `cdrom` and
`exitcode 1` are dropped, and none of the three forks a child; the line `ls`
is shown for comparison. -/
theorem EnterShellBody_prefix_dispatch :
    EnterShellBody sampleOS initializeSearchPaths "pathology\n".toList =
      ⟨⟨⟨some ["logy".toList], 1⟩, [], none⟩, BufferPtr.block⟩ ∧
    EnterShellBody sampleOS initializeSearchPaths "cdrom\n".toList =
      ⟨⟨initializeSearchPaths, [], none⟩, BufferPtr.block⟩ ∧
    EnterShellBody sampleOS initializeSearchPaths "exitcode 1\n".toList =
      ⟨⟨initializeSearchPaths, [], none⟩, BufferPtr.block⟩ ∧
    EnterShellBody sampleOS initializeSearchPaths "ls\n".toList =
      ⟨⟨initializeSearchPaths, [Event.fork "ls".toList, Event.waitAll], none⟩,
        BufferPtr.block⟩ := by
  decide

theorem mem_strsepAll (d : Char) (cur s : CStr) :
    ∀ p ∈ strsepAll d cur s, ∀ c ∈ p, c ∈ cur ∨ (c ∈ s ∧ c ≠ d) := by
  induction s generalizing cur with
  | nil =>
    intro p hp c hc
    simp only [strsepAll, List.mem_singleton] at hp
    subst hp
    exact Or.inl hc
  | cons x xs ih =>
    intro p hp c hc
    unfold strsepAll at hp
    split at hp
    · rcases List.mem_cons.1 hp with h | h
      · subst h; exact Or.inl hc
      · rcases ih [] p h c hc with h2 | h2
        · simp at h2
        · exact Or.inr ⟨List.mem_cons_of_mem _ h2.1, h2.2⟩
    · rename_i hx
      rcases ih (cur ++ [x]) p hp c hc with h2 | h2
      · rcases List.mem_append.1 h2 with h3 | h3
        · exact Or.inl h3
        · simp only [List.mem_singleton] at h3
          subst h3
          exact Or.inr ⟨List.mem_cons_self _ _, hx⟩
      · exact Or.inr ⟨List.mem_cons_of_mem _ h2.1, h2.2⟩

/-- The loop of lines 107-117 calls `fork` once for every piece that is not
empty once trimmed, and the child is to execute the trimmed piece. -/
theorem forkLoop_eq (os : OS) (n : Nat) (pieces : List CStr) (h : ∀ p ∈ pieces, NUL ∉ p) :
    forkLoop os n pieces =
      forkEvents os n ((pieces.map trimSpec).filter (fun t => !t.isEmpty)) := by
  induction pieces generalizing n with
  | nil => rfl
  | cons p ps ih =>
    have hp := h p (List.mem_cons_self _ _)
    have ih2 := fun k => ih k (fun q hq => h q (List.mem_cons_of_mem _ hq))
    have hc : cstr (trimWhitespace p).2 = trimSpec p := by
      rw [cstr_trimWhitespace, cstr_eq_self hp]
    unfold forkLoop
    simp only [rd_zero_eq_NUL_iff, hc, ih2, List.map_cons, List.filter_cons]
    by_cases he : trimSpec p = []
    · simp [he]
    · have : (trimSpec p).isEmpty = false := by
        cases hts : trimSpec p with
        | nil => exact absurd hts he
        | cons a b => rfl
      simp [he, this, forkEvents]

theorem forkEvents_of_forkOk (os : OS) (n : Nat) (cmds : List CStr)
    (h : ∀ k, os.forkOk k = true) : forkEvents os n cmds = cmds.map Event.fork := by
  induction cmds generalizing n with
  | nil => rfl
  | cons c cs ih => simp [forkEvents, h, ih]

theorem dropWhile_map_untab (s : CStr) :
    (s.map untab).dropWhile isspace = (s.dropWhile isspace).map untab := by
  induction s with
  | nil => rfl
  | cons c cs ih =>
    by_cases hc : isspace c = true
    · simp [List.dropWhile, isspace_untab, hc, ih]
    · simp [List.dropWhile, isspace_untab, hc]

/-- The first character of the trimmed line is the first character of the
line that is not white space. -/
theorem head?_trimSpec (s : CStr) : (trimSpec s).head? = (s.dropWhile isspace).head? := by
  rw [trimSpec_eq, dropWhile_map_untab]
  cases hD : s.dropWhile isspace with
  | nil => rfl
  | cons c D =>
    have hc : isspace c = false := by
      have := List.head_dropWhile_not isspace s (by rw [hD]; simp)
      simp only [hD, List.head_cons] at this
      simpa using this
    have hu : untab c = c := by
      have : c ≠ '\t' := by
        intro e; rw [e] at hc; exact absurd hc (by decide)
      simp [untab, this]
    obtain ⟨w, h1, h2⟩ := rdropWhile_append_suffix isspace ((c :: D).map untab)
    cases hT : ((c :: D).map untab).rdropWhile isspace with
    | nil =>
      rw [hT] at h1
      have : isspace (untab c) = true := h2 _ (by rw [← List.nil_append w, ← h1]; simp)
      rw [hu, hc] at this
      exact absurd this (by decide)
    | cons a T =>
      rw [hT] at h1
      simp only [List.map_cons, List.cons_append, List.cons.injEq] at h1
      simp [← h1.1, hu]

theorem head?_filter_of_head (s : CStr) (q : Char → Bool) (c : Char)
    (h : s.head? = some c) (hq : q c = true) : (s.filter q).head? = some c := by
  cases s with
  | nil => simp at h
  | cons a as =>
    simp only [List.head?_cons, Option.some.injEq] at h
    subst h
    simp [List.filter, hq]

/-- The first character of `cleanedBuffer` is the first character of the line
that is not white space. -/
theorem head?_cleanedBuffer (m : Mem) :
    (cleanedBuffer (trimWhitespace m).2).head? = ((cstr m).dropWhile isspace).head? := by
  rw [cleanedBuffer, cstr_trimWhitespace, ← head?_trimSpec]
  cases ht : trimSpec (cstr m) with
  | nil => rfl
  | cons c t =>
    have hc : isspace c = false := by
      have h1 := head?_trimSpec (cstr m)
      rw [ht] at h1
      cases hD : (cstr m).dropWhile isspace with
      | nil => rw [hD] at h1; simp at h1
      | cons x xs =>
        rw [hD] at h1
        simp only [List.head?_cons, Option.some.injEq] at h1
        have := List.head_dropWhile_not isspace (cstr m) (by rw [hD]; simp)
        simp only [hD, List.head_cons] at this
        rw [h1]; simpa using this
    show (List.filter _ (c :: t)).head? = some c
    apply head?_filter_of_head (c :: t) _ c rfl
    have h1 : c ≠ ' ' := by intro e; rw [e] at hc; exact absurd hc (by decide)
    have h2 : c ≠ '\t' := by intro e; rw [e] at hc; exact absurd hc (by decide)
    simp [h1, h2]

/-- A line that is not taken by one of the three prefix tests and does not
start with `>`. -/
theorem EnterShellBody_external (os : OS) (sh : Shell) (buffer0 : Mem)
    (hexit : ¬ "exit".toList <+: trimSpec (cstr (stripNewline buffer0)))
    (hcd : ¬ "cd".toList <+: trimSpec (cstr (stripNewline buffer0)))
    (hpath : ¬ "path".toList <+: trimSpec (cstr (stripNewline buffer0)))
    (hgt : ((cstr (stripNewline buffer0)).dropWhile isspace).head? ≠ some '>') :
    EnterShellBody os sh buffer0 =
      ⟨⟨sh, forkEvents os 0 (((strsepAll '&' [] (cstr (stripNewline buffer0))).map trimSpec).filter
          (fun t => !t.isEmpty)) ++
        (if trimSpec (cstr (stripNewline buffer0)) = [] then [] else [Event.waitAll]), none⟩,
        advance (trimWhitespace (stripNewline buffer0)).1⟩ := by
  unfold EnterShellBody
  dsimp only
  have hclean := head?_cleanedBuffer (stripNewline buffer0)
  have hB := cstr_trimWhitespace (stripNewline buffer0)
  have hfork := map_trimSpec_strsepAll (cstr (stripNewline buffer0))
  generalize cstr (stripNewline buffer0) = line at *
  generalize (trimWhitespace (stripNewline buffer0)).2 = B at *
  have h1 : strncmpEq B "exit".toList 4 = false := by
    rw [Bool.eq_false_iff, ne_eq, strncmpEq_exit, hB]; exact hexit
  have h2 : strncmpEq B "cd".toList 2 = false := by
    rw [Bool.eq_false_iff, ne_eq, strncmpEq_cd, hB]; exact hcd
  have h3 : strncmpEq B "path".toList 4 = false := by
    rw [Bool.eq_false_iff, ne_eq, strncmpEq_path, hB]; exact hpath
  have h4 : (cleanedBuffer B).head? ≠ some '>' := by rw [hclean]; exact hgt
  simp only [h1, h2, h3, h4, if_false, Bool.false_eq_true, rd_zero_eq_NUL_iff, hB]
  have hpieces : ∀ p ∈ strsepAll '&' [] (trimSpec line), NUL ∉ p := by
    intro p hp hmem
    rcases mem_strsepAll '&' [] _ p hp NUL hmem with h | h
    · simp at h
    · rw [← hB] at h
      exact NUL_not_mem_cstr B h.1
  by_cases ht : trimSpec line = []
  · rw [if_pos ht, if_pos ht, ← hfork, ht]
    rfl
  · rw [if_neg ht, if_neg ht, ← hB, forkLoop_eq _ _ _ (by rw [hB]; exact hpieces), hB, hfork]

theorem mem_trimSpec (s : CStr) (c : Char) (h : c ∈ trimSpec s) : ∃ d ∈ s, c = untab d := by
  rw [trimSpec_eq] at h
  have h1 := (List.rdropWhile_prefix isspace _).subset h
  have h2 := (List.dropWhile_suffix isspace).subset h1
  obtain ⟨d, hd, rfl⟩ := List.mem_map.1 h2
  exact ⟨d, hd, rfl⟩

/-! ## The claim about the segments of a line -/

/-- C6: for a line that none of the three built-in tests takes and whose
first character other than white space is not `>`, the loop body calls `fork`
once for every `&`-separated segment of the line that is not empty once
trimmed, from left to right, the child being handed the trimmed segment, and,
the forks succeeding, writes no error message; a line made only of `&` and
white space forks nothing, writes no error message and leaves the globals as
they are. -/
theorem EnterShellBody_forks_segments (os : OS) (sh : Shell) (buffer0 : Mem) :
    (¬ "exit".toList <+: trimSpec (cstr (stripNewline buffer0)) →
      ¬ "cd".toList <+: trimSpec (cstr (stripNewline buffer0)) →
      ¬ "path".toList <+: trimSpec (cstr (stripNewline buffer0)) →
      ((cstr (stripNewline buffer0)).dropWhile isspace).head? ≠ some '>' →
      (∀ n, os.forkOk n = true) →
      EnterShellBody os sh buffer0 =
        ⟨⟨sh, (((strsepAll '&' [] (cstr (stripNewline buffer0))).map trimSpec).filter
            (fun t => !t.isEmpty)).map Event.fork ++
          (if trimSpec (cstr (stripNewline buffer0)) = [] then [] else [Event.waitAll]),
          none⟩, advance (trimWhitespace (stripNewline buffer0)).1⟩) ∧
    ((∀ c ∈ cstr (stripNewline buffer0), isspace c = true ∨ c = '&') →
      (EnterShellBody os sh buffer0).shell = sh ∧
      (EnterShellBody os sh buffer0).status = none ∧
      ((EnterShellBody os sh buffer0).events = [] ∨
        (EnterShellBody os sh buffer0).events = [Event.waitAll])) := by
  refine ⟨fun h1 h2 h3 h4 hfork => ?_, fun hall => ?_⟩
  · rw [EnterShellBody_external os sh buffer0 h1 h2 h3 h4, forkEvents_of_forkOk os 0 _ hfork]
  have hchar : ∀ c ∈ trimSpec (cstr (stripNewline buffer0)), isspace c = true ∨ c = '&' := by
    intro c hc
    obtain ⟨d, hd, rfl⟩ := mem_trimSpec _ c hc
    rcases hall d hd with h | h
    · left; rw [isspace_untab]; exact h
    · right; subst h; rfl
  have hnot : ∀ (lit : CStr) (x : Char), x ∈ lit → isspace x = false → x ≠ '&' →
      ¬ lit <+: trimSpec (cstr (stripNewline buffer0)) := by
    intro lit x hx h1 h2 hpre
    rcases hchar x (hpre.subset hx) with h | h
    · rw [h1] at h; exact absurd h (by decide)
    · exact h2 h
  have hgt : ((cstr (stripNewline buffer0)).dropWhile isspace).head? ≠ some '>' := by
    intro h
    have hm : '>' ∈ (cstr (stripNewline buffer0)).dropWhile isspace := List.mem_of_mem_head? h
    rcases hall _ ((List.dropWhile_suffix isspace).subset hm) with h | h
    · exact absurd h (by decide)
    · exact absurd h (by decide)
  have hforks : ((strsepAll '&' [] (cstr (stripNewline buffer0))).map trimSpec).filter
      (fun t => !t.isEmpty) = [] := by
    rw [List.filter_eq_nil_iff]
    intro t ht
    obtain ⟨p, hp, rfl⟩ := List.mem_map.1 ht
    have : trimSpec p = [] := by
      apply trimSpec_of_isspace
      intro c hc
      rcases mem_strsepAll '&' [] _ p hp c hc with h | h
      · simp at h
      · rcases hall c h.1 with h2 | h2
        · exact h2
        · exact absurd h2 h.2
    simp [this]
  rw [EnterShellBody_external os sh buffer0
    (hnot _ 'e' (by decide) (by decide) (by decide))
    (hnot _ 'c' (by decide) (by decide) (by decide))
    (hnot _ 'p' (by decide) (by decide) (by decide)) hgt, hforks]
  refine ⟨rfl, rfl, ?_⟩
  by_cases ht : trimSpec (cstr (stripNewline buffer0)) = []
  · left; simp [ht, forkEvents]
  · right; simp [ht, forkEvents]

/-- Witness of C6: the line ` ls -l & & pwd `. -/
theorem EnterShellBody_forks_segments_witness :
    EnterShellBody sampleOS initializeSearchPaths " ls -l & & pwd \n".toList =
      ⟨⟨initializeSearchPaths,
        [Event.fork "ls -l".toList, Event.fork "pwd".toList, Event.waitAll], none⟩,
        BufferPtr.interior⟩ :=
  (EnterShellBody_forks_segments sampleOS initializeSearchPaths " ls -l & & pwd \n".toList).1
    (by decide) (by decide) (by decide) (by decide) (fun _ => rfl)

/-! ## The built-in lines and the loop -/

theorem lexGo_first (cur s w : CStr) (rest : List CStr) (hcur : cur ≠ [])
    (h : lexGo isspace cur s = w :: rest) : ∃ pre, w = cur ++ pre ∧ pre <+: s := by
  induction s generalizing cur with
  | nil =>
    rw [lexGo, flush_of_ne_nil hcur] at h
    exact ⟨[], by simp [(List.cons.inj h).1], List.prefix_refl _⟩
  | cons c cs ih =>
    unfold lexGo at h
    split at h
    · rw [flush_of_ne_nil hcur] at h
      exact ⟨[], by simp [(List.cons.inj h).1], List.nil_prefix⟩
    · split at h
      · rw [flush_of_ne_nil hcur] at h
        exact ⟨[], by simp [(List.cons.inj h).1], List.nil_prefix⟩
      · obtain ⟨pre, h1, h2⟩ := ih (cur ++ [c]) (by simp) h
        exact ⟨c :: pre, by simp [h1], by simpa using h2⟩

/-- A first token that is a word stands at the front of the string, behind the
leading white space. -/
theorem specTokens_first (s w : CStr) (rest : List CStr)
    (h : specTokens isspace s = w :: rest) (hw : w ≠ ['>']) : w <+: s.dropWhile isspace := by
  unfold specTokens at h
  rw [← lexGo_dropWhile] at h
  cases hD : s.dropWhile isspace with
  | nil => rw [hD] at h; simp [lexGo, flush] at h
  | cons c D =>
    have hc : isspace c = false := by
      have := List.head_dropWhile_not isspace s (by rw [hD]; simp)
      simp only [hD, List.head_cons] at this
      simpa using this
    rw [hD] at h
    unfold lexGo at h
    rw [if_neg (by simp [hc])] at h
    split at h
    · simp only [flush, List.isEmpty_nil, if_true, List.nil_append] at h
      exact absurd (List.cons.inj h).1.symm hw
    · obtain ⟨pre, h1, h2⟩ := lexGo_first _ _ _ _ (by simp) h
      rw [h1]
      simpa using h2

theorem head_trimSpec (s : CStr) (c : Char) (t : CStr) (h : trimSpec s = c :: t) :
    isspace c = false := by
  have h1 := head?_trimSpec s
  rw [h] at h1
  cases hD : s.dropWhile isspace with
  | nil => rw [hD] at h1; simp at h1
  | cons x xs =>
    rw [hD] at h1
    simp only [List.head?_cons, Option.some.injEq] at h1
    have := List.head_dropWhile_not isspace s (by rw [hD]; simp)
    simp only [hD, List.head_cons] at this
    rw [h1]; simpa using this

theorem dropWhile_trimSpec (s : CStr) : (trimSpec s).dropWhile isspace = trimSpec s := by
  cases h : trimSpec s with
  | nil => rfl
  | cons c t =>
    have := head_trimSpec s c t h
    simp [List.dropWhile, this]

theorem setupCommands_trimmed (m : Mem) : setupCommands (trimWhitespace m).2 = setupCommands m := by
  rw [setupCommands_eq, setupCommands_eq, cstr_trimWhitespace, specTokens_trimSpec]

/-- When the first token of a line is a word, the trimmed buffer starts with it. -/
theorem first_token_prefix (m : Mem) (w : CStr) (rest : List CStr)
    (h : setupCommands m = w :: rest) (hw : w ≠ ['>']) : w <+: cstr (trimWhitespace m).2 := by
  rw [← setupCommands_trimmed, setupCommands_eq, cstr_trimWhitespace] at h
  have := specTokens_first _ w rest h hw
  rw [dropWhile_trimSpec] at this
  rw [cstr_trimWhitespace]
  exact this

theorem cleaned_of_prefix (m : Mem) (w : CStr) (c : Char) (cs : CStr) (hw : w = c :: cs)
    (h : w <+: cstr (trimWhitespace m).2) : (cleanedBuffer (trimWhitespace m).2).head? = some c := by
  rw [head?_cleanedBuffer, ← head?_trimSpec, ← cstr_trimWhitespace]
  obtain ⟨t, ht⟩ := h
  rw [← ht, hw]
  rfl

/-- A line whose first word is `exit` goes to `exitCommand`. -/
theorem EnterShellBody_exit (os : OS) (sh : Shell) (buffer0 : Mem) (args : List CStr)
    (h : setupCommands (stripNewline buffer0) = "exit".toList :: args) :
    EnterShellBody os sh buffer0 =
      ⟨match args with
        | [] => ⟨sh, [], some 0⟩
        | _ :: _ => ⟨sh, [Event.errorMessage], none⟩,
        advance (trimWhitespace (stripNewline buffer0)).1⟩ := by
  have hpre := first_token_prefix _ _ _ h (by decide)
  have hclean := cleaned_of_prefix _ _ 'e' "xit".toList rfl hpre
  have htok := setupCommands_trimmed (stripNewline buffer0)
  rw [h] at htok
  unfold EnterShellBody
  dsimp only
  generalize (trimWhitespace (stripNewline buffer0)).2 = B at *
  have h1 : strncmpEq B "exit".toList 4 = true := (strncmpEq_exit B).2 hpre
  simp only [hclean, h1, if_true, Option.some.injEq, show ¬ ('e' = '>') by decide, if_false]
  unfold exitCommand
  rw [htok]
  cases args <;> rfl

/-- A line whose first word is `cd` goes to `changeDirectory`. -/
theorem EnterShellBody_cd (os : OS) (sh : Shell) (buffer0 : Mem) (args : List CStr)
    (h : setupCommands (stripNewline buffer0) = "cd".toList :: args) :
    EnterShellBody os sh buffer0 =
      ⟨⟨sh, changeDirectory os ("cd".toList :: args), none⟩,
        advance (trimWhitespace (stripNewline buffer0)).1⟩ := by
  have hpre := first_token_prefix _ _ _ h (by decide)
  have hclean := cleaned_of_prefix _ _ 'c' "d".toList rfl hpre
  have htok := setupCommands_trimmed (stripNewline buffer0)
  rw [h] at htok
  unfold EnterShellBody
  dsimp only
  generalize (trimWhitespace (stripNewline buffer0)).2 = B at *
  have h1 : strncmpEq B "cd".toList 2 = true := (strncmpEq_cd B).2 hpre
  have h0 : strncmpEq B "exit".toList 4 = false := by
    rw [Bool.eq_false_iff, ne_eq, strncmpEq_exit]
    obtain ⟨t, ht⟩ := hpre
    rw [← ht]
    simp
  simp only [hclean, h0, h1, if_true, Option.some.injEq, show ¬ ('c' = '>') by decide, if_false,
    Bool.false_eq_true, htok]

theorem EnterShell_cons (os : OS) (sh : Shell) (buffer : Mem) (rest : List Mem) :
    EnterShell os sh (buffer :: rest) =
      match (EnterShellBody os sh buffer).status with
      | some status =>
        ⟨LoopEvent.prompt :: LoopEvent.getline (some buffer) ::
            (EnterShellBody os sh buffer).events.map LoopEvent.call ++
              [LoopEvent.exitShell status], LoopEnd.exited status⟩
      | none =>
        ⟨LoopEvent.prompt :: LoopEvent.getline (some buffer) ::
            (EnterShellBody os sh buffer).events.map LoopEvent.call ++
              freeEvents (EnterShellBody os sh buffer).buffer ++
              (EnterShellFrom os (EnterShellBody os sh buffer).buffer
                (EnterShellBody os sh buffer).shell rest).events,
          (EnterShellFrom os (EnterShellBody os sh buffer).buffer
            (EnterShellBody os sh buffer).shell rest).ending⟩ := by
  rw [EnterShell, EnterShellFrom]

/-- With the pointer at the start of its block every iteration starts with the
prompt and the call of `getline`. -/
theorem EnterShell_starts (os : OS) (sh : Shell) (input : List Mem) :
    ∃ tail, (EnterShell os sh input).events =
      LoopEvent.prompt :: LoopEvent.getline input.head? :: tail := by
  cases input with
  | nil => exact ⟨_, rfl⟩
  | cons b rest =>
    rw [EnterShell_cons]
    cases (EnterShellBody os sh b).status with
    | none => exact ⟨_, rfl⟩
    | some n => exact ⟨_, rfl⟩

theorem freeEvents_advance (skipped : Mem) : freeEvents (advance skipped) = [] := by
  unfold advance
  split <;> rfl

/-- Whatever line 68 did to the pointer, the next iteration prints its prompt. -/
theorem EnterShellFrom_advance_prompt (os : OS) (sh : Shell) (skipped : Mem)
    (input : List Mem) :
    ∃ tail, (EnterShellFrom os (advance skipped) sh input).events = LoopEvent.prompt :: tail := by
  unfold advance
  split
  · obtain ⟨tail, h⟩ := EnterShell_starts os sh input
    exact ⟨_, h⟩
  · exact ⟨[], by rw [EnterShellFrom]⟩

/-- The loop on three inputs: after the line ` ls` the pointer is inside the
block when `getline` is called again; after the line `> out` it has been
freed; for the line ` > out` line 89 frees the pointer inside the block. -/
theorem EnterShell_buffer_traces :
    EnterShell sampleOS initializeSearchPaths [" ls\n".toList, "ls\n".toList] =
      ⟨[LoopEvent.prompt, LoopEvent.getline (some " ls\n".toList),
          LoopEvent.call (Event.fork "ls".toList), LoopEvent.call Event.waitAll,
          LoopEvent.prompt], LoopEnd.interiorBuffer⟩ ∧
    EnterShell sampleOS initializeSearchPaths ["> out\n".toList, "ls\n".toList] =
      ⟨[LoopEvent.prompt, LoopEvent.getline (some "> out\n".toList),
          LoopEvent.call Event.errorMessage, LoopEvent.freeBuffer, LoopEvent.prompt],
        LoopEnd.freedBuffer⟩ ∧
    EnterShell sampleOS initializeSearchPaths [" > out\n".toList, "ls\n".toList] =
      ⟨[LoopEvent.prompt, LoopEvent.getline (some " > out\n".toList),
          LoopEvent.call Event.errorMessage], LoopEnd.invalidFree⟩ := by
  decide

/-! ## The claims about exit, cd and redirected built-ins -/

/-- C11: for a line whose first word is `exit`: without an argument the shell
calls `exit(0)` and the loop ends there with status 0; with one or more
arguments the shell writes the error message once, changes nothing and does
not exit: the loop goes on, with the pointer `buffer` where line 68 left it,
and prints the next prompt.  When the line does not begin with white space the
pointer is still at the start of its block and the loop goes on with the next
line as it would after any other line. -/
theorem exitCommand_arity (os : OS) (sh : Shell) (buffer0 : Mem) (args : List CStr)
    (rest : List Mem) (h : setupCommands (stripNewline buffer0) = "exit".toList :: args) :
    (args = [] →
      EnterShellBody os sh buffer0 =
        ⟨⟨sh, [], some 0⟩, advance (trimWhitespace (stripNewline buffer0)).1⟩ ∧
      EnterShell os sh (buffer0 :: rest) =
        ⟨[LoopEvent.prompt, LoopEvent.getline (some buffer0), LoopEvent.exitShell 0],
          LoopEnd.exited 0⟩) ∧
    (args ≠ [] →
      EnterShellBody os sh buffer0 =
        ⟨⟨sh, [Event.errorMessage], none⟩, advance (trimWhitespace (stripNewline buffer0)).1⟩ ∧
      EnterShell os sh (buffer0 :: rest) =
        ⟨LoopEvent.prompt :: LoopEvent.getline (some buffer0) ::
            LoopEvent.call Event.errorMessage ::
            (EnterShellFrom os (advance (trimWhitespace (stripNewline buffer0)).1) sh rest).events,
          (EnterShellFrom os (advance (trimWhitespace (stripNewline buffer0)).1) sh
            rest).ending⟩ ∧
      (∃ tail,
        (EnterShellFrom os (advance (trimWhitespace (stripNewline buffer0)).1) sh rest).events =
          LoopEvent.prompt :: tail) ∧
      (isspace (rd buffer0 0) = false →
        EnterShell os sh (buffer0 :: rest) =
          ⟨LoopEvent.prompt :: LoopEvent.getline (some buffer0) ::
              LoopEvent.call Event.errorMessage :: (EnterShell os sh rest).events,
            (EnterShell os sh rest).ending⟩)) := by
  have hb := EnterShellBody_exit os sh buffer0 args h
  constructor
  · intro ha
    subst ha
    simp only at hb
    refine ⟨hb, ?_⟩
    rw [EnterShell_cons, hb]
    rfl
  · intro ha
    cases args with
    | nil => exact absurd rfl ha
    | cons a as =>
      simp only at hb
      have hloop : EnterShell os sh (buffer0 :: rest) =
          ⟨LoopEvent.prompt :: LoopEvent.getline (some buffer0) ::
              LoopEvent.call Event.errorMessage ::
              (EnterShellFrom os (advance (trimWhitespace (stripNewline buffer0)).1) sh
                rest).events,
            (EnterShellFrom os (advance (trimWhitespace (stripNewline buffer0)).1) sh
              rest).ending⟩ := by
        rw [EnterShell_cons, hb]
        simp only [freeEvents_advance, List.map_cons, List.map_nil, List.append_nil,
          List.cons_append, List.nil_append]
      refine ⟨hb, hloop, EnterShellFrom_advance_prompt os sh _ rest, fun hs => ?_⟩
      rw [hloop, advance_of_not_isspace buffer0 hs]
      rfl

/-- Witness of C11: the line `exit now`, followed by the line `exit`. -/
theorem exitCommand_arity_witness :
    EnterShell sampleOS initializeSearchPaths ["exit now\n".toList, "exit\n".toList] =
      ⟨[LoopEvent.prompt, LoopEvent.getline (some "exit now\n".toList),
          LoopEvent.call Event.errorMessage,
          LoopEvent.prompt, LoopEvent.getline (some "exit\n".toList), LoopEvent.exitShell 0],
        LoopEnd.exited 0⟩ :=
  (((exitCommand_arity sampleOS initializeSearchPaths "exit now\n".toList ["now".toList]
    ["exit\n".toList] (by decide)).2 (by decide)).2.2.2 (by decide)).trans (by decide)

/-- C12 fails on the code for two or more arguments: `changeDirectory` tests
`args[1] == NULL` first and otherwise calls `chdir(args[1])`; its branch for
`args[2] != NULL` repeats the condition of the first `if` and is never taken.
The line `cd /tmp /usr` changes to `/tmp` without an error message; the line
`cd` is shown for comparison. -/
theorem changeDirectory_extra_arguments :
    EnterShellBody sampleOS initializeSearchPaths "cd /tmp /usr\n".toList =
      ⟨⟨initializeSearchPaths, [Event.chdir "/tmp".toList], none⟩, BufferPtr.block⟩ ∧
    (∀ (os : OS) (dir more : CStr) (rest : List CStr),
      changeDirectory os ("cd".toList :: dir :: more :: rest) =
        if os.chdirOk dir then [Event.chdir dir] else [Event.chdir dir, Event.errorMessage]) ∧
    EnterShellBody sampleOS initializeSearchPaths "cd\n".toList =
      ⟨⟨initializeSearchPaths, [Event.errorMessage], none⟩, BufferPtr.block⟩ := by
  refine ⟨by decide, fun os dir more rest => ?_, by decide⟩
  simp [changeDirectory]

/-- C13 as stated fails: the line `path /bin > out` contains a `>` token, yet
it writes no error message and replaces the path table. -/
theorem builtin_redirect_counterexample :
    setupCommands (stripNewline "path /bin > out\n".toList) =
      ["path".toList, "/bin".toList, ">".toList, "out".toList] ∧
    EnterShellBody sampleOS initializeSearchPaths "path /bin > out\n".toList =
      ⟨⟨⟨some ["/bin".toList, ">".toList, "out".toList], 3⟩, [], none⟩, BufferPtr.block⟩ ∧
    (EnterShellBody sampleOS initializeSearchPaths "path /bin > out\n".toList).events.count
      Event.errorMessage ≠ 1 ∧
    (EnterShellBody sampleOS initializeSearchPaths "path /bin > out\n".toList).shell ≠
      initializeSearchPaths := by
  decide

/-- C13, amended: a line whose first word is `exit` and which contains a `>`
token writes the error message once, leaves the globals as they are and does
not end the shell.  The other built-ins do not look for `>`: a `path` line
with `>` among its words puts every word behind `path` into the path table
and writes no error message, and the line `cd >` calls `chdir` for the
directory `>`. -/
theorem builtin_redirect (os : OS) (sh : Shell) :
    (∀ (buffer0 : Mem) (args : List CStr),
      setupCommands (stripNewline buffer0) = "exit".toList :: args → ">".toList ∈ args →
      EnterShellBody os sh buffer0 =
        ⟨⟨sh, [Event.errorMessage], none⟩, advance (trimWhitespace (stripNewline buffer0)).1⟩) ∧
    (∀ (items : List (CStr × CStr)) (lead trail : CStr) (rest : Mem),
      (∀ it ∈ items, IsItem it) → (∃ it ∈ items, '>' ∈ it.2) →
      (∀ c ∈ lead, blank c = true) → (∀ c ∈ trail, blank c = true) → rd rest 0 = NUL →
      EnterShellBody os sh (lead ++ "path".toList ++ gapped items ++ trail ++ '\n' :: rest) =
        ⟨⟨⟨some (items.map Prod.snd), items.length⟩, [], none⟩, advance lead⟩) ∧
    (∀ (buffer0 : Mem), setupCommands (stripNewline buffer0) = ["cd".toList, ">".toList] →
      EnterShellBody os sh buffer0 =
        ⟨⟨sh, if os.chdirOk ">".toList then [Event.chdir ">".toList]
          else [Event.chdir ">".toList, Event.errorMessage], none⟩,
          advance (trimWhitespace (stripNewline buffer0)).1⟩) := by
  refine ⟨fun buffer0 args h hmem => ?_, fun items lead trail rest hi hgt hl ht hr => ?_,
    fun buffer0 h => ?_⟩
  · have hb := EnterShellBody_exit os sh buffer0 args h
    cases args with
    | nil => simp at hmem
    | cons a as => exact hb
  · rw [EnterShellBody_path_gapped os sh items lead trail rest hi hl ht hr]
    have hne : items ≠ [] := by
      obtain ⟨it, hit, _⟩ := hgt
      exact List.ne_nil_of_mem hit
    rw [if_neg hne]
  · rw [EnterShellBody_cd os sh buffer0 _ h]
    simp [changeDirectory]

/-- Witness of C13 (amended): the line `exit > out`. -/
theorem builtin_redirect_witness :
    EnterShellBody sampleOS initializeSearchPaths "exit > out\n".toList =
      ⟨⟨initializeSearchPaths, [Event.errorMessage], none⟩, BufferPtr.block⟩ :=
  (builtin_redirect sampleOS initializeSearchPaths).1 "exit > out\n".toList
    [">".toList, "out".toList] (by decide) (by decide)

/-! ## The claims about batches, the loop and the children -/

/-- A line whose first character other than white space is `>` is rejected as
a whole, and line 89 frees the pointer line 68 left. -/
theorem EnterShellBody_leading_gt (os : OS) (sh : Shell) (buffer0 : Mem)
    (h : ((cstr (stripNewline buffer0)).dropWhile isspace).head? = some '>') :
    EnterShellBody os sh buffer0 =
      ⟨⟨sh, [Event.errorMessage], none⟩,
        freeBuffer (advance (trimWhitespace (stripNewline buffer0)).1)⟩ := by
  unfold EnterShellBody
  simp only [head?_cleanedBuffer, h, if_true]

theorem forkEvents_no_wait (os : OS) (n : Nat) (cmds : List CStr) :
    Event.waitAll ∉ forkEvents os n cmds := by
  induction cmds generalizing n with
  | nil => simp [forkEvents]
  | cons c cs ih =>
    simp only [forkEvents, List.mem_cons, List.mem_append, not_or]
    refine ⟨by simp, ?_, ih _⟩
    split <;> simp

theorem forkEvents_count (os : OS) (n : Nat) (cmds : List CStr) :
    (forkEvents os n cmds).filter Event.isFork = cmds.map Event.fork := by
  induction cmds generalizing n with
  | nil => rfl
  | cons c cs ih =>
    simp only [forkEvents, List.filter_cons, Event.isFork, if_true, List.filter_append,
      List.map_cons, ih]
    split <;> simp [Event.isFork]

theorem ExecuteCommand_unresolved_run (os : OS) (sh : Shell) (command : Mem) (w0 : CStr)
    (ws : List CStr) (target : Option CStr)
    (hcmd : setupCommands command = (w0 :: ws) ++ redirectTokens target)
    (hw : ">".toList ∉ w0 :: ws) (hf : target ≠ some ">".toList)
    (hinv : ∀ ps, sh.searchPaths = some ps → sh.numPaths = ps.length)
    (hno : ∀ d ∈ sh.table, os.access (d ++ "/".toList ++ w0) = false) :
    ExecuteCommand os sh command =
      redirected os target ⟨[Event.errorMessage], Outcome.returned⟩ := by
  have hres : resolveAndExec os sh ((w0 :: ws).map some ++ [none]) =
      ⟨[Event.errorMessage], Outcome.returned⟩ := by
    apply resolveAndExec_none
    cases hsp : sh.searchPaths with
    | none => exact Or.inl rfl
    | some ps =>
      right
      refine ⟨ps, rfl, hinv ps hsp, ?_⟩
      have ht : sh.table = ps := by
        simp [Shell.table, hsp, hinv ps hsp]
      rw [ht] at hno
      exact hno
  rw [ExecuteCommand_wellformed os sh command w0 ws target hcmd hw hf, hres]

/-- C14 fails on the code for a command that is not the first of its line:
in `ls & > out` the segment `> out` is forked like any other, and its child
takes `out` as the redirection target of an empty command: it opens (and
truncates) `out`, redirects descriptor 1, and then reads `args[0]`, which is
NULL, without having written the error message.  The same command at the start
of a line is rejected with one error message. -/
theorem ExecuteCommand_leading_redirect :
    EnterShellBody sampleOS initializeSearchPaths "ls & > out\n".toList =
      ⟨⟨initializeSearchPaths,
        [Event.fork "ls".toList, Event.fork "> out".toList, Event.waitAll], none⟩,
        BufferPtr.block⟩ ∧
    setupCommands "> out".toList = [">".toList, "out".toList] ∧
    ExecuteCommand sampleOS initializeSearchPaths "> out".toList =
      ⟨[openCall "out".toList, Event.dup2 3 1, Event.close 3], Outcome.undefined⟩ ∧
    EnterShellBody sampleOS initializeSearchPaths "> out\n".toList =
      ⟨⟨initializeSearchPaths, [Event.errorMessage], none⟩, BufferPtr.freed⟩ := by
  decide

/-- C15 as stated fails: in the line `> out & ls` the first command begins
with `>`; the whole line is dropped with one error message and the well-formed
command `ls` is not forked. -/
theorem batch_leading_redirect_counterexample :
    EnterShellBody sampleOS initializeSearchPaths "> out & ls\n".toList =
      ⟨⟨initializeSearchPaths, [Event.errorMessage], none⟩, BufferPtr.freed⟩ ∧
    setupCommands "ls".toList = ["ls".toList] ∧
    Event.fork "ls".toList ∉
      (EnterShellBody sampleOS initializeSearchPaths "> out & ls\n".toList).events := by
  decide

/-- C15, amended: in a line that no built-in test takes and whose first
character other than white space is not `>`, every `&`-separated segment that
is not empty once trimmed is forked, in order, whatever the other segments
are; the child of a segment whose redirection is invalid writes the error
message once, executes nothing and exits.  A line whose first character other
than white space is `>` is rejected as a whole: one error message, no fork,
and line 89 then frees the line buffer; when white space stands in front of
the `>`, line 68 has moved the pointer into the block and that `free` is
undefined. -/
theorem batch_malformed_sibling (os : OS) (sh : Shell) (buffer0 : Mem) :
    (¬ "exit".toList <+: trimSpec (cstr (stripNewline buffer0)) →
      ¬ "cd".toList <+: trimSpec (cstr (stripNewline buffer0)) →
      ¬ "path".toList <+: trimSpec (cstr (stripNewline buffer0)) →
      ((cstr (stripNewline buffer0)).dropWhile isspace).head? ≠ some '>' →
      (∀ n, os.forkOk n = true) →
      (EnterShellBody os sh buffer0).events =
        (((strsepAll '&' [] (cstr (stripNewline buffer0))).map trimSpec).filter
            (fun t => !t.isEmpty)).map Event.fork ++
          (if trimSpec (cstr (stripNewline buffer0)) = [] then [] else [Event.waitAll])) ∧
    (∀ (segment : Mem) (pre post : List CStr),
      setupCommands segment = pre ++ ">".toList :: post → pre ≠ [] → ">".toList ∉ pre →
      (∀ f, post = [f] → f = ">".toList) →
      childProcess os sh segment = (⟨[Event.errorMessage], Outcome.returned⟩, some 0)) ∧
    (((cstr (stripNewline buffer0)).dropWhile isspace).head? = some '>' →
      EnterShellBody os sh buffer0 =
        ⟨⟨sh, [Event.errorMessage], none⟩,
          if isspace (rd (stripNewline buffer0) 0) then BufferPtr.invalidFree
          else BufferPtr.freed⟩) := by
  refine ⟨fun h1 h2 h3 h4 hfork => ?_, fun segment pre post hcmd hne hpre hbad => ?_,
    fun hgt => ?_⟩
  · rw [EnterShellBody_external os sh buffer0 h1 h2 h3 h4, forkEvents_of_forkOk os 0 _ hfork]
  · have hE : ExecuteCommand os sh segment = ⟨[Event.errorMessage], Outcome.returned⟩ := by
      unfold ExecuteCommand
      rw [hcmd]
      cases pre with
      | nil => exact absurd rfl hne
      | cons a as => exact ExecuteArgs_malformed os sh (a :: as) post hpre hbad
    unfold childProcess
    rw [hE]
    rfl
  · rw [EnterShellBody_leading_gt os sh buffer0 hgt, advance_trimWhitespace]
    split <;> rfl

/-- Witness of C15 (amended): the line `ls > a b & pwd`, and the lines `> out`
and ` > out`. -/
theorem batch_malformed_sibling_witness :
    (EnterShellBody sampleOS initializeSearchPaths "ls > a b & pwd\n".toList).events =
      [Event.fork "ls > a b".toList, Event.fork "pwd".toList, Event.waitAll] ∧
    childProcess sampleOS initializeSearchPaths "ls > a b".toList =
      (⟨[Event.errorMessage], Outcome.returned⟩, some 0) ∧
    EnterShellBody sampleOS initializeSearchPaths "> out\n".toList =
      ⟨⟨initializeSearchPaths, [Event.errorMessage], none⟩, BufferPtr.freed⟩ ∧
    EnterShellBody sampleOS initializeSearchPaths " > out\n".toList =
      ⟨⟨initializeSearchPaths, [Event.errorMessage], none⟩, BufferPtr.invalidFree⟩ :=
  ⟨(batch_malformed_sibling sampleOS initializeSearchPaths "ls > a b & pwd\n".toList).1
      (by decide) (by decide) (by decide) (by decide) (fun _ => rfl),
    (batch_malformed_sibling sampleOS initializeSearchPaths "ls > a b & pwd\n".toList).2.1
      "ls > a b".toList ["ls".toList] ["a".toList, "b".toList] (by decide) (by decide)
      (by decide) (fun _ h => absurd h (by simp)),
    (batch_malformed_sibling sampleOS initializeSearchPaths "> out\n".toList).2.2 (by decide),
    (batch_malformed_sibling sampleOS initializeSearchPaths " > out\n".toList).2.2 (by decide)⟩

/-- The shell process exits only through a line of its input. -/
theorem EnterShellFrom_exited (os : OS) (ptr : BufferPtr) (sh : Shell) (input : List Mem)
    (n : Nat) (h : (EnterShellFrom os ptr sh input).ending = LoopEnd.exited n) :
    ∃ buffer ∈ input, ∃ sh2, (EnterShellBody os sh2 buffer).status = some n := by
  induction input generalizing ptr sh with
  | nil => cases ptr <;> simp [EnterShellFrom] at h
  | cons b rest ih =>
    cases ptr with
    | invalidFree => simp [EnterShellFrom] at h
    | interior => simp [EnterShellFrom] at h
    | freed => simp [EnterShellFrom] at h
    | block =>
      rw [EnterShellFrom] at h
      cases hs : (EnterShellBody os sh b).status with
      | some k =>
        simp only [hs, LoopEnd.exited.injEq] at h
        exact ⟨b, List.mem_cons_self _ _, sh, by rw [hs, h]⟩
      | none =>
        simp only [hs] at h
        obtain ⟨b2, hb2, sh2, h2⟩ := ih _ _ h
        exact ⟨b2, List.mem_cons_of_mem _ hb2, sh2, h2⟩

theorem EnterShell_exited (os : OS) (sh : Shell) (input : List Mem) (n : Nat)
    (h : (EnterShell os sh input).ending = LoopEnd.exited n) :
    ∃ buffer ∈ input, ∃ sh2, (EnterShellBody os sh2 buffer).status = some n :=
  EnterShellFrom_exited os BufferPtr.block sh input n h

/-- C16 fails on the code: when `getline` returns -1 the loop runs
`free(buffer); continue;`, so it prints the prompt again and calls `getline`
again (with the freed pointer) instead of leaving the loop; the shell exits
only when a line of the input makes it exit, never at the end of the input. -/
theorem EnterShell_end_of_input :
    (∀ (os : OS) (sh : Shell), EnterShell os sh [] =
      ⟨[LoopEvent.prompt, LoopEvent.getline none, LoopEvent.freeBuffer, LoopEvent.prompt],
        LoopEnd.freedBuffer⟩) ∧
    main sampleOS 1 ["ls\n".toList] =
      ⟨[LoopEvent.prompt, LoopEvent.getline (some "ls\n".toList),
        LoopEvent.call (Event.fork "ls".toList), LoopEvent.call Event.waitAll,
        LoopEvent.prompt, LoopEvent.getline none, LoopEvent.freeBuffer, LoopEvent.prompt],
        LoopEnd.freedBuffer⟩ ∧
    (∀ (os : OS) (sh : Shell) (input : List Mem) (n : Nat),
      (EnterShell os sh input).ending = LoopEnd.exited n →
      ∃ buffer ∈ input, ∃ sh2, (EnterShellBody os sh2 buffer).status = some n) := by
  exact ⟨fun _ _ => rfl, by decide, EnterShell_exited⟩

/-- C17: for a line that forks (no built-in test takes it, it does not start
with `>` and is not blank), the shell process calls `fork` once per segment,
all of these calls before the loop `while (wait(NULL) > 0);`, and the next
prompt comes only after that loop has ended and the next `getline` only after
that prompt.  When the line does not begin with white space that `getline` is
the call for the next line of the input; when it does, line 68 has moved the
pointer into the block and the run of the model ends at that call. -/
theorem EnterShell_waits_before_prompt (os : OS) (sh : Shell) (buffer0 : Mem)
    (rest : List Mem)
    (hexit : ¬ "exit".toList <+: trimSpec (cstr (stripNewline buffer0)))
    (hcd : ¬ "cd".toList <+: trimSpec (cstr (stripNewline buffer0)))
    (hpath : ¬ "path".toList <+: trimSpec (cstr (stripNewline buffer0)))
    (hgt : ((cstr (stripNewline buffer0)).dropWhile isspace).head? ≠ some '>')
    (hne : trimSpec (cstr (stripNewline buffer0)) ≠ []) :
    ∃ (forks : List Event) (tail : List LoopEvent),
      (EnterShell os sh (buffer0 :: rest)).events =
        LoopEvent.prompt :: LoopEvent.getline (some buffer0) ::
          (forks.map LoopEvent.call ++
            LoopEvent.call Event.waitAll :: LoopEvent.prompt :: tail) ∧
      Event.waitAll ∉ forks ∧
      forks.filter Event.isFork =
        (((strsepAll '&' [] (cstr (stripNewline buffer0))).map trimSpec).filter
          (fun t => !t.isEmpty)).map Event.fork ∧
      (isspace (rd buffer0 0) = false →
        ∃ tail2, tail = LoopEvent.getline rest.head? :: tail2) ∧
      (isspace (rd buffer0 0) = true →
        tail = [] ∧ (EnterShell os sh (buffer0 :: rest)).ending = LoopEnd.interiorBuffer) := by
  have hb := EnterShellBody_external os sh buffer0 hexit hcd hpath hgt
  rw [if_neg hne] at hb
  have hloop : EnterShell os sh (buffer0 :: rest) =
      ⟨LoopEvent.prompt :: LoopEvent.getline (some buffer0) ::
          ((forkEvents os 0 (((strsepAll '&' [] (cstr (stripNewline buffer0))).map trimSpec).filter
              (fun t => !t.isEmpty))).map LoopEvent.call ++
            LoopEvent.call Event.waitAll ::
              (EnterShellFrom os (advance (trimWhitespace (stripNewline buffer0)).1) sh
                rest).events),
        (EnterShellFrom os (advance (trimWhitespace (stripNewline buffer0)).1) sh
          rest).ending⟩ := by
    rw [EnterShell_cons, hb]
    simp only [freeEvents_advance, List.map_append, List.map_cons, List.map_nil,
      List.append_assoc, List.singleton_append, List.cons_append, List.nil_append]
  have hnl : rd buffer0 0 ≠ '\n' := by
    intro e
    apply hne
    cases buffer0 with
    | nil => exact absurd e (by decide)
    | cons c cs =>
      simp only [rd, List.getD_cons_zero] at e
      subst e
      rfl
  obtain ⟨tail, ht⟩ := EnterShellFrom_advance_prompt os sh
    (trimWhitespace (stripNewline buffer0)).1 rest
  refine ⟨_, tail, ?_, forkEvents_no_wait os 0 _, forkEvents_count os 0 _, fun hs => ?_,
    fun hs => ?_⟩
  · rw [hloop, ht]
  · rw [advance_of_not_isspace buffer0 hs] at ht
    obtain ⟨tail2, h2⟩ := EnterShell_starts os sh rest
    unfold EnterShell at h2
    rw [ht] at h2
    exact ⟨tail2, (List.cons.inj h2).2⟩
  · rw [advance_of_isspace buffer0 hs hnl] at ht
    rw [EnterShellFrom] at ht
    refine ⟨((List.cons.inj ht).2).symm, ?_⟩
    rw [hloop, advance_of_isspace buffer0 hs hnl, EnterShellFrom]

/-- Witness of C17: the line `ls & pwd`, followed by the line `ls`. -/
theorem EnterShell_waits_before_prompt_witness :
    ∃ (forks : List Event) (tail : List LoopEvent),
      (EnterShell sampleOS initializeSearchPaths ["ls & pwd\n".toList, "ls\n".toList]).events =
        LoopEvent.prompt :: LoopEvent.getline (some "ls & pwd\n".toList) ::
          (forks.map LoopEvent.call ++
            LoopEvent.call Event.waitAll :: LoopEvent.prompt :: tail) ∧
      Event.waitAll ∉ forks ∧
      forks.filter Event.isFork =
        (((strsepAll '&' [] (cstr (stripNewline "ls & pwd\n".toList))).map trimSpec).filter
          (fun t => !t.isEmpty)).map Event.fork ∧
      (isspace (rd "ls & pwd\n".toList 0) = false →
        ∃ tail2, tail = LoopEvent.getline ["ls\n".toList].head? :: tail2) ∧
      (isspace (rd "ls & pwd\n".toList 0) = true →
        tail = [] ∧
          (EnterShell sampleOS initializeSearchPaths
            ["ls & pwd\n".toList, "ls\n".toList]).ending = LoopEnd.interiorBuffer) :=
  EnterShell_waits_before_prompt sampleOS initializeSearchPaths "ls & pwd\n".toList
    ["ls\n".toList] (by decide) (by decide) (by decide) (by decide) (by decide)

/-- C18 fails on the code: when `execv` returns, lines 197-200 free `path` and
the arguments and write the error message, but there is no `return`; line 202
frees `path` a second time, which is undefined behaviour, and the loop and the
second `ErrorHandler(0)` of line 208 lie behind it. -/
theorem ExecuteCommand_failed_execv :
    noExecOS.access "/bin/ls".toList = true ∧
    noExecOS.execvOk "/bin/ls".toList ["ls".toList] = false ∧
    ExecuteCommand noExecOS initializeSearchPaths "ls".toList =
      ⟨[Event.execv "/bin/ls".toList ["ls".toList], Event.errorMessage],
        Outcome.undefined⟩ := by
  decide

/-- C19 as stated fails: the child of `cat`, for which no candidate is
executable, writes the error message and then exits with status 0. -/
theorem childProcess_status_counterexample :
    sampleOS.access "/bin/cat".toList = false ∧
    childProcess sampleOS initializeSearchPaths "cat".toList =
      (⟨[Event.errorMessage], Outcome.returned⟩, some 0) ∧
    ¬ (∃ n, n ≠ 0 ∧ (childProcess sampleOS initializeSearchPaths "cat".toList).2 = some n) := by
  refine ⟨by decide, by decide, ?_⟩
  rintro ⟨n, hn, h⟩
  have h0 : (childProcess sampleOS initializeSearchPaths "cat".toList).2 = some 0 := by decide
  rw [h0] at h
  exact hn (Option.some.inj h).symm

/-- C19, amended: for a well-formed external command for which no directory of
the path table gives an executable candidate (the empty table included), the
child writes the error message once, `ExecuteCommand` returns, and the child
then calls `exit(0)`: its exit status is 0. -/
theorem childProcess_unresolved_status (os : OS) (sh : Shell) (command : Mem) (w0 : CStr)
    (ws : List CStr) (target : Option CStr)
    (hcmd : setupCommands command = (w0 :: ws) ++ redirectTokens target)
    (hw : ">".toList ∉ w0 :: ws) (hf : target ≠ some ">".toList)
    (hinv : ∀ ps, sh.searchPaths = some ps → sh.numPaths = ps.length)
    (hno : ∀ d ∈ sh.table, os.access (d ++ "/".toList ++ w0) = false) :
    (childProcess os sh command).2 = some 0 ∧
    (childProcess os sh command).1.outcome = Outcome.returned ∧
    (childProcess os sh command).1.events.count Event.errorMessage = 1 := by
  have hrun := ExecuteCommand_unresolved_run os sh command w0 ws target hcmd hw hf hinv hno
  unfold childProcess
  simp only [hrun]
  cases target with
  | none => simp [redirected]
  | some f =>
    cases ho : os.openFd f with
    | none => simp [redirected, ho, openCall]
    | some fd => simp [redirected, ho, openCall]

/-- Witness of C19 (amended): `cat notes` with the default table. -/
theorem childProcess_unresolved_status_witness :
    (childProcess sampleOS initializeSearchPaths "cat notes".toList).2 = some 0 ∧
    (childProcess sampleOS initializeSearchPaths "cat notes".toList).1.outcome =
      Outcome.returned ∧
    (childProcess sampleOS initializeSearchPaths "cat notes".toList).1.events.count
      Event.errorMessage = 1 :=
  childProcess_unresolved_status sampleOS initializeSearchPaths "cat notes".toList
    "cat".toList ["notes".toList] none (by decide) (by decide) (by decide) (by decide)
    (by decide)

/-! ## The size of the normalised command -/

theorem padCredit_le (out : CStr) : padCredit out ≤ 1 := by
  unfold padCredit; split <;> omega

theorem padCredit_space (out : CStr) : padCredit (out ++ [' ']) = 0 := by
  simp [padCredit]

/-- The normalising loop writes at most two bytes per byte it reads, plus one
when a `>` comes right behind a byte that is not a space. -/
theorem length_normalizeLoop (fuel : Nat) (src out : CStr) :
    (normalizeLoop fuel src out).length ≤ out.length + 2 * src.length + padCredit out := by
  induction fuel generalizing src out with
  | zero => simp only [normalizeLoop]; omega
  | succ fuel ih =>
    cases src with
    | nil => simp [normalizeLoop]
    | cons c rest =>
      unfold normalizeLoop
      by_cases hs : isspace c = true
      · rw [if_pos hs]
        have h1 := ih (rest.dropWhile isspace) (out ++ [' '])
        have h2 : (rest.dropWhile isspace).length ≤ rest.length :=
          List.Sublist.length_le (List.dropWhile_sublist _)
        rw [padCredit_space] at h1
        simp only [List.length_append, List.length_singleton, List.length_cons, List.length_nil] at h1 ⊢
        omega
      · rw [if_neg hs]
        by_cases hgt : c = '>'
        · rw [if_pos hgt]
          simp only
          have hout1 : (if out ≠ [] ∧ out.getLast? ≠ some ' ' then out ++ [' '] else out).length =
              out.length + padCredit out := by
            unfold padCredit
            split <;> simp
          by_cases hnext : rest.head? ≠ some ' '
          · rw [if_pos hnext]
            have h1 := ih rest ((if out ≠ [] ∧ out.getLast? ≠ some ' ' then out ++ [' ']
              else out) ++ ['>'] ++ [' '])
            rw [padCredit_space] at h1
            simp only [List.length_append, List.length_singleton, List.length_cons, List.length_nil,
              hout1]
              at h1 ⊢
            omega
          · rw [if_neg hnext]
            have h1 := ih rest ((if out ≠ [] ∧ out.getLast? ≠ some ' ' then out ++ [' ']
              else out) ++ ['>'])
            have h3 := padCredit_le ((if out ≠ [] ∧ out.getLast? ≠ some ' ' then out ++ [' ']
              else out) ++ ['>'])
            simp only [List.length_append, List.length_singleton, List.length_cons, List.length_nil,
              hout1]
              at h1 ⊢
            omega
        · rw [if_neg hgt]
          have h1 := ih rest (out ++ [c])
          have h3 := padCredit_le (out ++ [c])
          simp only [List.length_append, List.length_singleton, List.length_cons, List.length_nil] at h1 ⊢
          omega

theorem normalizeLoop_prefix (fuel : Nat) (src out : CStr) :
    out <+: normalizeLoop fuel src out := by
  induction fuel generalizing src out with
  | zero => exact List.prefix_refl _
  | succ fuel ih =>
    cases src with
    | nil => exact List.prefix_refl _
    | cons c rest =>
      unfold normalizeLoop
      split
      · exact (List.prefix_append out _).trans (ih _ _)
      · split
        · simp only
          refine List.IsPrefix.trans ?_ (ih _ _)
          split <;> split <;> simp [List.append_assoc]
        · exact (List.prefix_append out _).trans (ih _ _)

theorem normalizeLoop_fuel (fuel1 fuel2 : Nat) (src out : CStr)
    (h1 : src.length < fuel1) (h2 : src.length < fuel2) :
    normalizeLoop fuel1 src out = normalizeLoop fuel2 src out := by
  induction fuel1 generalizing fuel2 src out with
  | zero => omega
  | succ f1 ih =>
    cases fuel2 with
    | zero => omega
    | succ f2 =>
      cases src with
      | nil => rfl
      | cons c rest =>
        simp only [List.length_cons, Nat.add_lt_add_iff_right] at h1 h2
        have hd : (rest.dropWhile isspace).length ≤ rest.length :=
          List.Sublist.length_le (List.dropWhile_sublist _)
        unfold normalizeLoop
        split
        · exact ih _ _ _ (by omega) (by omega)
        · split
          · exact ih _ _ _ h1 h2
          · exact ih _ _ _ h1 h2

/-- C20: the normalised string `setupCommands` builds from the trimmed command
is at most twice as long as the trimmed command, so that it and its terminator
fit in the `strlen(command) * 2 + 1` bytes of `normalizedCommand`; the loop
only appends to what it has written, so no write goes past that length, and
the bound on the number of iterations does not cut the loop short. -/
theorem normalizedCommand_fits (m : Mem) :
    (normalize (cstr (trimWhitespace m).2)).length + 1 ≤ strlen (trimWhitespace m).2 * 2 + 1 ∧
    (∀ fuel src out, out <+: normalizeLoop fuel src out) ∧
    (∀ fuel, (cstr (trimWhitespace m).2).length < fuel →
      normalizeLoop fuel (cstr (trimWhitespace m).2) [] = normalize (cstr (trimWhitespace m).2)) := by
  refine ⟨?_, normalizeLoop_prefix, fun fuel h => ?_⟩
  · have := length_normalizeLoop ((cstr (trimWhitespace m).2).length + 1)
      (cstr (trimWhitespace m).2) []
    rw [strlen_eq]
    unfold normalize
    simp only [padCredit, List.length_nil] at this
    simp only [ne_eq, not_true_eq_false, false_and, if_false] at this
    omega
  · exact normalizeLoop_fuel _ _ _ _ h (Nat.lt_succ_self _)

end Rush
